import Mathlib

/-!
# Verification of the html-refactor HTML refactoring engine

This file gives a shallow embedding, in Lean 4, of the core of the
`html-refactor` static-site asset pipeline (the HTML refactoring engine in
the main refactor script) and settles the frozen claims about it.

Modelling conventions:

* JavaScript strings are Lean `String`s; machine integers are `Nat` with
  explicit `% 2 ^ 32` where 32-bit overflow matters (SHA-256).
* `crypto.createHash('sha256')` is embedded as a full executable SHA-256
  over the UTF-8 bytes of the input string.
* Node `path` functions are modelled for forward-slash paths: `path.join`
  as slash-separated concatenation, `path.relative`/`path.dirname`/
  `path.basename` segment-wise, which matches Node's behaviour on the
  already-normalized absolute paths the program feeds them.
* The filesystem is an association list from path strings to file data.
  HTML files are stored as their parsed document value (`FileData.html`)
  so that cheerio's parse/serialize round-trip is the identity of the
  model; every other file is opaque text (`FileData.text`).  A `World`
  additionally carries the log of writes performed, so "zero filesystem
  writes" is a statement about the log, not merely about net change.
* `cheerio`'s document handle is modelled by `HtmlDoc`: the ordered list
  of `<style>`-tag contents, the ordered list of elements (each with an
  optional `style` attribute and a class list), the ordered list of
  `<script>` tags (optional `src` plus body text), and the
  `<head>` stylesheet links.
-/

/-! ## String and list utilities shared by the embedding -/

/-- Substring test: JavaScript `haystack.includes(needle)`. -/
def strIncludes (hay needle : String) : Bool :=
  (List.range (hay.data.length + 1)).any (fun i => needle.data.isPrefixOf (hay.data.drop i))

/-- Suffix test: JavaScript `s.endsWith(t)` (used for separator checks). -/
def strEndsWith (s t : String) : Bool :=
  s.data.drop (s.data.length - t.data.length) = t.data

/-- Prefix test: JavaScript `s.startsWith(t)`. -/
def strStartsWith (s t : String) : Bool :=
  t.data.isPrefixOf s.data

/-- JavaScript `s.replace(/\\/g, '/')`: every backslash becomes a slash. -/
def replaceBackslashes (s : String) : String :=
  String.mk (s.data.map (fun c => if c = '\\' then '/' else c))

/-- JavaScript `s.trim()` (kernel-computable form over the char list). -/
def strTrim (s : String) : String :=
  String.mk (((s.data.dropWhile Char.isWhitespace).reverse.dropWhile Char.isWhitespace).reverse)

/-- Split a character list on a separator character. -/
def splitOnCharAux (sep : Char) : List Char → List (List Char)
  | [] => [[]]
  | c :: rest =>
    match splitOnCharAux sep rest with
    | [] => [[]]
    | g :: gs => if c = sep then [] :: g :: gs else (c :: g) :: gs

/-- JavaScript `s.split(sep)` for a one-character separator. -/
def strSplitOnChar (sep : Char) (s : String) : List String :=
  (splitOnCharAux sep s.data).map String.mk

/-- `Array.join(sep)` / `String.intercalate`. -/
def strIntercalate (sep : String) : List String → String
  | [] => ""
  | [x] => x
  | x :: y :: rest => x ++ sep ++ strIntercalate sep (y :: rest)

/-- Drop the first `n` characters. -/
def strDrop (s : String) (n : Nat) : String := String.mk (s.data.drop n)

/-- Drop the last `n` characters. -/
def strDropRight (s : String) (n : Nat) : String :=
  String.mk (s.data.take (s.data.length - n))

/-- Drop leading characters satisfying `f`. -/
def strDropWhile (f : Char → Bool) (s : String) : String :=
  String.mk (s.data.dropWhile f)

/-- Drop trailing characters satisfying `f`. -/
def strDropRightWhile (f : Char → Bool) (s : String) : String :=
  String.mk ((s.data.reverse.dropWhile f).reverse)

/-! ## SHA-256 (embedding of Node `crypto.createHash('sha256')`)

A complete, executable SHA-256 over `Nat`, with 32-bit wrap-around written
as `% 2 ^ 32` (constant `4294967296`). -/

/-- Truncate to 32 bits. -/
def w32 (n : Nat) : Nat := n % 4294967296

/-- 32-bit right rotation. -/
def rotr32 (k x : Nat) : Nat := w32 ((x >>> k) ||| (x <<< (32 - k)))

/-- UTF-8 encoding of one character, as its list of bytes. -/
def utf8EncodeChar (c : Char) : List Nat :=
  let n := c.toNat
  if n < 128 then [n]
  else if n < 2048 then [192 ||| (n >>> 6), 128 ||| (n &&& 63)]
  else if n < 65536 then
    [224 ||| (n >>> 12), 128 ||| ((n >>> 6) &&& 63), 128 ||| (n &&& 63)]
  else
    [240 ||| (n >>> 18), 128 ||| ((n >>> 12) &&& 63),
     128 ||| ((n >>> 6) &&& 63), 128 ||| (n &&& 63)]

/-- UTF-8 bytes of a string (what `hash.update(str)` consumes). -/
def utf8Bytes (s : String) : List Nat :=
  (s.data.map utf8EncodeChar).flatten

/-- The SHA-256 round constants. -/
def sha256K : List Nat :=
  [1116352408, 1899447441, 3049323471, 3921009573, 961987163, 1508970993,
   2453635748, 2870763221, 3624381080, 310598401, 607225278, 1426881987,
   1925078388, 2162078206, 2614888103, 3248222580, 3835390401, 4022224774,
   264347078, 604807628, 770255983, 1249150122, 1555081692, 1996064986,
   2554220882, 2821834349, 2952996808, 3210313671, 3336571891, 3584528711,
   113926993, 338241895, 666307205, 773529912, 1294757372, 1396182291,
   1695183700, 1986661051, 2177026350, 2456956037, 2730485921, 2820302411,
   3259730800, 3345764771, 3516065817, 3600352804, 4094571909, 275423344,
   430227734, 506948616, 659060556, 883997877, 958139571, 1322822218,
   1537002063, 1747873779, 1955562222, 2024104815, 2227730452, 2361852424,
   2428436474, 2756734187, 3204031479, 3329325298]

/-- The eight SHA-256 working registers. -/
structure Hash8 where
  a : Nat
  b : Nat
  c : Nat
  d : Nat
  e : Nat
  f : Nat
  g : Nat
  h : Nat
deriving DecidableEq, Repr

/-- SHA-256 initial hash value. -/
def sha256H0 : Hash8 :=
  ⟨0x6a09e667, 0xbb67ae85, 0x3c6ef372, 0xa54ff53a,
   0x510e527f, 0x9b05688c, 0x1f83d9ab, 0x5be0cd19⟩

/-- Extend 16 message words to the 64-word schedule. -/
def sha256Schedule (ws : List Nat) : List Nat :=
  (List.range 48).foldl
    (fun acc _ =>
      let n := acc.length
      let w15 := acc.getD (n - 15) 0
      let w2 := acc.getD (n - 2) 0
      let s0 := (rotr32 7 w15) ^^^ (rotr32 18 w15) ^^^ (w15 >>> 3)
      let s1 := (rotr32 17 w2) ^^^ (rotr32 19 w2) ^^^ (w2 >>> 10)
      acc ++ [w32 (acc.getD (n - 16) 0 + s0 + acc.getD (n - 7) 0 + s1)])
    ws

/-- One SHA-256 compression round; `kw` is the round constant plus word. -/
def sha256Round (st : Hash8) (kw : Nat) : Hash8 :=
  let s1 := (rotr32 6 st.e) ^^^ (rotr32 11 st.e) ^^^ (rotr32 25 st.e)
  let ch := (st.e &&& st.f) ^^^ ((st.e ^^^ 4294967295) &&& st.g)
  let t1 := w32 (st.h + s1 + ch + kw)
  let s0 := (rotr32 2 st.a) ^^^ (rotr32 13 st.a) ^^^ (rotr32 22 st.a)
  let mj := (st.a &&& st.b) ^^^ (st.a &&& st.c) ^^^ (st.b &&& st.c)
  let t2 := w32 (s0 + mj)
  ⟨w32 (t1 + t2), st.a, st.b, st.c, w32 (st.d + t1), st.e, st.f, st.g⟩

/-- Process one 64-byte block (given as 16 words) into the running hash. -/
def sha256Block (st : Hash8) (ws : List Nat) : Hash8 :=
  let sched := sha256Schedule ws
  let kws := (sha256K.zip sched).map (fun p => w32 (p.1 + p.2))
  let r := kws.foldl sha256Round st
  ⟨w32 (st.a + r.a), w32 (st.b + r.b), w32 (st.c + r.c), w32 (st.d + r.d),
   w32 (st.e + r.e), w32 (st.f + r.f), w32 (st.g + r.g), w32 (st.h + r.h)⟩

/-- Big-endian 4-byte groups into 32-bit words. -/
def bytesToWords : List Nat → List Nat
  | a :: b :: c :: d :: rest => (((a * 256 + b) * 256 + c) * 256 + d) :: bytesToWords rest
  | _ => []

/-- Split a byte list into 64-byte chunks. -/
def chunksOf64 : List Nat → List (List Nat)
  | [] => []
  | x :: xs => ((x :: xs).take 64) :: chunksOf64 ((x :: xs).drop 64)
termination_by l => l.length
decreasing_by simp [List.length_drop]; omega

/-- SHA-256 padding: `0x80`, zeros to 56 mod 64, then the 64-bit bit length. -/
def sha256Pad (msg : List Nat) : List Nat :=
  let len := msg.length
  let zeros := (119 - (len % 64)) % 64
  let bitLen := len * 8
  msg ++ [128] ++ List.replicate zeros 0 ++
    [(bitLen >>> 56) % 256, (bitLen >>> 48) % 256, (bitLen >>> 40) % 256,
     (bitLen >>> 32) % 256, (bitLen >>> 24) % 256, (bitLen >>> 16) % 256,
     (bitLen >>> 8) % 256, bitLen % 256]

/-- Big-endian bytes of one 32-bit word. -/
def wordBytes (w : Nat) : List Nat :=
  [(w >>> 24) % 256, (w >>> 16) % 256, (w >>> 8) % 256, w % 256]

/-- The 32 digest bytes of a final hash state. -/
def digestBytes (st : Hash8) : List Nat :=
  wordBytes st.a ++ wordBytes st.b ++ wordBytes st.c ++ wordBytes st.d ++
  wordBytes st.e ++ wordBytes st.f ++ wordBytes st.g ++ wordBytes st.h

/-- SHA-256 of a byte list, as its 32 digest bytes. -/
def sha256Bytes (msg : List Nat) : List Nat :=
  digestBytes (((chunksOf64 (sha256Pad msg)).map bytesToWords).foldl sha256Block sha256H0)

/-- One lowercase hex digit. -/
def hexChar (n : Nat) : Char :=
  if n < 10 then Char.ofNat (48 + n) else Char.ofNat (87 + n)

/-- Two lowercase hex digits of one byte. -/
def byteHex (b : Nat) : List Char :=
  [hexChar (b / 16), hexChar (b % 16)]

/-- The 64 lowercase hex characters of `sha256(utf8(s))`:
Node `crypto.createHash('sha256').update(s).digest('hex')`. -/
def sha256HexChars (s : String) : List Char :=
  ((sha256Bytes (utf8Bytes s)).map byteHex).flatten

/-- The first `n` hex characters of the SHA-256 digest of `s`:
JavaScript `...digest('hex').substring(0, n)`. -/
def sha256HexPrefix (n : Nat) (s : String) : String :=
  String.mk ((sha256HexChars s).take n)

/-! ## Node `path` model (forward-slash paths)

The program normalizes every path it compares or emits to forward
slashes, so the model works with `/`-separated strings throughout. -/

/-- Path segments: split on `/`, dropping empty and `.` parts. -/
def pathSegs (p : String) : List String :=
  (strSplitOnChar '/' p).filter (fun s => s ≠ "" && s ≠ ".")

/-- `path.join(dir, name)` for a clean directory and a slash-free name. -/
def pathJoin (a b : String) : String := a ++ "/" ++ b

/-- `path.dirname`: everything before the final `/` (with Node's edge cases
`"."` for a bare name and `"/"` for a root-level file). -/
def pathDirname (p : String) : String :=
  let parts := strSplitOnChar '/' p
  if parts.length ≤ 1 then "."
  else if (parts.dropLast).all (· = "") then "/"
  else strIntercalate "/" parts.dropLast

/-- `path.basename(p, ext)`: final segment, with `ext` stripped when the
segment ends in (but does not equal) `ext`. -/
def pathBasenameExt (p ext : String) : String :=
  let b := (strSplitOnChar '/' p).getLastD ""
  if b ≠ ext && strEndsWith b ext then strDropRight b ext.length else b

/-- `path.resolve(root, dir)` for an absolute `root`. -/
def pathResolve (root dir : String) : String :=
  if strStartsWith dir "/" then dir else root ++ "/" ++ dir

/-- Longest-common-prefix removal for `path.relative`. -/
def dropCommon : List String → List String → List String × List String
  | a :: as, b :: bs => if a = b then dropCommon as bs else (a :: as, b :: bs)
  | as, bs => (as, bs)

/-- `path.relative(from, to)` on absolute paths. -/
def pathRelative (src dst : String) : String :=
  let p := dropCommon (pathSegs src) (pathSegs dst)
  strIntercalate "/" (p.1.map (fun _ => "..") ++ p.2)

/-! ## Name/Path Generator (embedding of the utility functions)

`FILENAME_SANITIZATION_REGEX = /[^a-zA-Z0-9_.-]/g`, replacement `'_'`. -/

/-- Characters the sanitization regex leaves alone. -/
def isSafeFilenameChar (c : Char) : Bool :=
  ('a' ≤ c && c ≤ 'z') || ('A' ≤ c && c ≤ 'Z') || ('0' ≤ c && c ≤ '9') ||
    c = '_' || c = '.' || c = '-'

/-- JavaScript `replace(/_+/g, '_')`: collapse runs of underscores. -/
def collapseUnderscores : List Char → List Char
  | [] => []
  | [c] => [c]
  | c :: d :: rest =>
    if c = '_' && d = '_' then collapseUnderscores (d :: rest)
    else c :: collapseUnderscores (d :: rest)

/-- `sanitizeStringForFilename`: replace every character outside
`[A-Za-z0-9_.-]` with `_`, then collapse repeated underscores.
An empty (falsy) input returns the empty string. -/
def sanitizeStringForFilename (str : String) : String :=
  if str = "" then ""
  else
    String.mk (collapseUnderscores
      (str.data.map (fun c => if isSafeFilenameChar c then c else '_')))

/-- The configuration object, restricted to the fields the engine reads. -/
structure Config where
  projectRoot : String
  stylesOutputDir : String
  cssOutputDirStrategy : String
  jsOutputDirStrategy : String
  jsCentralOutputDir : String
  compiledCssLinkDir : String
  htmlPrefixesToOmitFromCssName : List String
  maxFilenameLength : Nat
  createBackups : Bool
  copyToDist : Bool
  distSourceRoot : String
  distDir : String
deriving DecidableEq, Repr

/-- `config.maxFilenameLength || 100`: the effective maximum
(the JavaScript fallback fires on the falsy value `0`). -/
def effectiveMaxLength (cfg : Config) : Nat :=
  if cfg.maxFilenameLength = 0 then 100 else cfg.maxFilenameLength

/-- `generateSafeBaseName(originalName, context, config)`: sanitize; when the
sanitized name exceeds the maximum, truncate it to
`max(10, maxLength - 9)` characters and append `_` plus the first 8 hex
characters of the SHA-256 of the original (unsanitized) name.  The
`context` argument is only used for logging in the source. -/
def generateSafeBaseName (originalName context : String) (cfg : Config) : String :=
  let sanitizedOriginalName := sanitizeStringForFilename originalName
  let maxLength := effectiveMaxLength cfg
  let _ := context
  if sanitizedOriginalName.length > maxLength then
    let hash := sha256HexPrefix 8 originalName
    let truncateLength : Int := (maxLength : Int) - (hash.length : Int) - 1
    let actualTruncateLength := max 10 (if truncateLength > 0 then truncateLength.toNat else 10)
    String.mk (sanitizedOriginalName.data.take actualTruncateLength) ++ "_" ++ hash
  else sanitizedOriginalName

/-- `generateCssFileBaseName(htmlFilePath, config)`: project-relative path,
first matching prefix stripped, directory part joined to the stem with
underscores, then passed through `generateSafeBaseName`. -/
def generateCssFileBaseName (htmlFilePath : String) (cfg : Config) : String :=
  let relativeHtmlPath := replaceBackslashes (pathRelative cfg.projectRoot htmlFilePath)
  let prefixesToOmit := cfg.htmlPrefixesToOmitFromCssName.map
    (fun p => strDropRightWhile (· = '/') (strDropWhile (· = '/') (replaceBackslashes p)))
  let effectivePathForNaming :=
    match prefixesToOmit.find? (fun pr => strStartsWith relativeHtmlPath (pr ++ "/")) with
    | some pr => strDrop relativeHtmlPath (pr ++ "/").length
    | none => relativeHtmlPath
  let htmlFileBasePart := pathBasenameExt effectivePathForNaming ".html"
  let htmlFileDirPart := pathDirname effectivePathForNaming
  let cssFileBaseCandidate :=
    if htmlFileDirPart ≠ "" && htmlFileDirPart ≠ "." then
      String.mk (htmlFileDirPart.data.map (fun c => if c = '/' || c = '\\' then '_' else c))
        ++ "_" ++ htmlFileBasePart
    else htmlFileBasePart
  generateSafeBaseName cssFileBaseCandidate "CSS" cfg

/-! ## Style normalization and class generation -/

/-- Lexicographic (code-point) order on character lists. -/
def charListLe : List Char → List Char → Bool
  | [], _ => true
  | _ :: _, [] => false
  | a :: as, b :: bs =>
    if a.toNat < b.toNat then true
    else if b.toNat < a.toNat then false
    else charListLe as bs

/-- JavaScript string comparison (code-unit lexicographic; identical to
code-point order on the strings the program handles). -/
def strLe (a b : String) : Bool := charListLe a.data b.data

/-- Insert into a sorted list of strings (JavaScript `Array.sort()` on
strings orders them the same way, and ties are identical strings). -/
def insertSortedStr (s : String) : List String → List String
  | [] => [s]
  | t :: ts => if strLe s t then s :: t :: ts else t :: insertSortedStr s ts

/-- Lexicographic string sort. -/
def sortStrings : List String → List String
  | [] => []
  | s :: ss => insertSortedStr s (sortStrings ss)

/-- `normalizeStyleString`: split on `;`, trim, drop empties, sort, rejoin. -/
def normalizeStyleString (style : String) : String :=
  if style = "" then ""
  else strIntercalate ";"
    (sortStrings (((strSplitOnChar ';' style).map strTrim).filter (· ≠ "")))

/-- `generateClassFromStyle`: `css-` plus the first 8 hex characters of the
SHA-256 of the normalized style string. -/
def generateClassFromStyle (normalizedStyle : String) : String :=
  "css-" ++ sha256HexPrefix 8 normalizedStyle


/-! ## Document model

`cheerio`'s handle on one parsed HTML document, restricted to what the
engine inspects and mutates: `<style>` tag contents, elements carrying a
`style` attribute (with their class lists), `<script>` tags, and the
stylesheet `<link>`s in `<head>`. -/

/-- An element as the style-attribute pass sees it. -/
structure StyledElem where
  style : Option String
  classes : List String
deriving DecidableEq, Repr

/-- A `<script>` tag: optional `src` attribute and inline body text. -/
structure Script where
  src : Option String
  body : String
deriving DecidableEq, Repr

/-- One parsed HTML document. -/
structure HtmlDoc where
  styleTags : List String
  elems : List StyledElem
  scripts : List Script
  headLinks : List String
  hasHead : Bool
deriving DecidableEq, Repr

/-- `$element.addClass(cls)`: append the class when not already present. -/
def addClass (cls : String) (e : StyledElem) : StyledElem :=
  if cls ∈ e.classes then e else { e with classes := e.classes ++ [cls] }

/-! ## Style Extractor (embedding of `extractCssFromHtml`, main engine) -/

/-- The originating comment plus content for one extracted `<style>` tag. -/
def styleTagComment (base : String) (idx : Nat) (content : String) : String :=
  "\n/* Extracted from <style> tag in " ++ base ++ ".html (index " ++ Nat.repr idx ++
    ") */\n" ++ strTrim content ++ "\n"

/-- Pass 1 of `extractCssFromHtml`: walk the `<style>` tags (with their
selection index), extract and remove each tag with non-blank content. -/
def styleTagPass (base : String) : Nat → List String → String × List String × Bool
  | _, [] => ("", [], false)
  | idx, t :: ts =>
    let r := styleTagPass base (idx + 1) ts
    if strTrim t ≠ "" then (styleTagComment base idx t ++ r.1, r.2.1, true)
    else (r.1, t :: r.2.1, r.2.2)

/-- `normalizedStyle.replace(/;/g, ';\n  ')` — the pretty-printed rule body. -/
def styleRulePretty (normalized : String) : String :=
  String.mk ((normalized.data.map
    (fun c => if c = ';' then [';', '\n', ' ', ' '] else [c])).flatten)

/-- The CSS rule block emitted for one new deduplicated style attribute. -/
def attrRuleText (base cls normalized : String) : String :=
  "\n/* Style for ." ++ cls ++ " from " ++ base ++ ".html */\n." ++ cls ++
    " \x7b\n  " ++ styleRulePretty normalized ++ "\n\x7d\n"

/-- State of the style-attribute pass: accumulated CSS text, the run-local
deduplication map (`styleMap`), and the modification flag. -/
structure CssAttrState where
  css : String
  styleMap : List (String × String)
  modified : Bool
deriving DecidableEq, Repr

/-- `styleMap.get(k)` over the association-list model of the `Map`. -/
def lookupMap (m : List (String × String)) (k : String) : Option String :=
  (m.find? (fun e => e.1 = k)).map (fun e => e.2)

/-- Pass 2 body: handle one element of the `$('[style]')` selection. -/
def processStyleAttrElem (base : String) (st : CssAttrState) (e : StyledElem) :
    CssAttrState × StyledElem :=
  match e.style with
  | none => (st, e)
  | some raw =>
    if strTrim raw = "" then (st, e)
    else
      let normalized := normalizeStyleString raw
      match lookupMap st.styleMap normalized with
      | some cls =>
        ({ st with modified := true }, addClass cls { e with style := none })
      | none =>
        let cls := generateClassFromStyle normalized
        ({ css := st.css ++ attrRuleText base cls normalized,
           styleMap := st.styleMap ++ [(normalized, cls)],
           modified := true },
         addClass cls { e with style := none })

/-- Pass 2 of `extractCssFromHtml`: fold over the elements in document
order, threading the deduplication state. -/
def styleAttrPass (base : String) (st : CssAttrState) :
    List StyledElem → CssAttrState × List StyledElem
  | [] => (st, [])
  | e :: es =>
    let p := processStyleAttrElem base st e
    let q := styleAttrPass base p.1 es
    (q.1, p.2 :: q.2)

/-- Result of `extractCssFromHtml`. -/
structure CssExtractResult where
  doc : HtmlDoc
  cssContent : String
  cssModified : Bool
deriving DecidableEq, Repr

/-- `extractCssFromHtml($, htmlFilePath, htmlFileBaseName)`: extract
`<style>` tags, then deduplicate and extract `style` attributes; the
returned CSS text is trimmed. -/
def extractCssFromHtml (doc : HtmlDoc) (htmlFileBaseName : String) : CssExtractResult :=
  let t := styleTagPass htmlFileBaseName 0 doc.styleTags
  let a := styleAttrPass htmlFileBaseName ⟨t.1, [], t.2.2⟩ doc.elems
  { doc := { doc with styleTags := t.2.1, elems := a.2 },
    cssContent := strTrim a.1.css, cssModified := a.1.modified }

/-- The run-local deduplication map a document run ends with. -/
def extractCssStyleMap (doc : HtmlDoc) (base : String) : List (String × String) :=
  ((styleAttrPass base ⟨(styleTagPass base 0 doc.styleTags).1, [],
      (styleTagPass base 0 doc.styleTags).2.2⟩ doc.elems).1).styleMap

/-! ## Filesystem model -/

/-- File contents: HTML files are stored parsed (cheerio's round-trip is
the identity of the model); all other files are opaque text.  The engine
reads non-HTML files only as text; `fileText` of a parsed HTML value is
`""` (that read does not occur on the executed paths). -/
inductive FileData where
  | text (s : String)
  | html (d : HtmlDoc)
deriving DecidableEq, Repr

/-- The filesystem: an association list from paths to file data. -/
abbrev FS := List (String × FileData)

/-- `fs.readFile` (as data): first binding of the path. -/
def fsRead (fs : FS) (p : String) : Option FileData :=
  (fs.find? (fun e => e.1 = p)).map (fun e => e.2)

/-- Write/overwrite one path. -/
def fsSet : FS → String → FileData → FS
  | [], p, fd => [(p, fd)]
  | (q, old) :: rest, p, fd =>
    if q = p then (q, fd) :: rest else (q, old) :: fsSet rest p fd

/-- The world: the filesystem plus the log of writes performed, so that
"zero filesystem writes" is about operations, not just net state. -/
structure World where
  fs : FS
  writes : List (String × FileData)
deriving DecidableEq, Repr

/-- `fs.writeFile`/`fs.copyFile` target effect: set the path and log it. -/
def fsWriteW (w : World) (p : String) (fd : FileData) : World :=
  { fs := fsSet w.fs p fd, writes := w.writes ++ [(p, fd)] }

/-- `fs.pathExists`. -/
def pathExistsW (w : World) (p : String) : Bool := (fsRead w.fs p).isSome

/-- Content of a file read as UTF-8 text. -/
def fileText : FileData → String
  | .text s => s
  | .html _ => ""

/-! ## Persistence: `saveCssFile` (main engine) -/

/-- The separator comment appended before new styles. -/
def cssSeparator : String := "\n\n/* --- Appended styles from HTML Refactor --- */\n"

/-- Result of a CSS save: the target path (when any) and the new world. -/
structure SaveCssResult where
  savedPath : Option String
  world : World
deriving DecidableEq, Repr

/-- The CSS target path `saveCssFile` computes: co-located with the HTML
file or under the centralized styles directory. -/
def cssTargetPath (cssFileBaseName htmlFilePath : String) (cfg : Config) : String :=
  if cfg.cssOutputDirStrategy = "relativeToHtml" then
    pathJoin (pathDirname htmlFilePath) (cssFileBaseName ++ ".css")
  else pathJoin (pathResolve cfg.projectRoot cfg.stylesOutputDir) (cssFileBaseName ++ ".css")

/-- `saveCssFile(cssContent, cssFileBaseName, htmlFilePath, config, isDryRun)`
of the main engine: skip when the existing content already includes the new
content; otherwise append after the separator comment (directly when the
existing content is blank). -/
def saveCssFile (w : World) (cssContent cssFileBaseName htmlFilePath : String)
    (cfg : Config) (isDryRun : Bool) : SaveCssResult :=
  if strTrim cssContent = "" then ⟨none, w⟩
  else
    let newCssFileFullPath := cssTargetPath cssFileBaseName htmlFilePath cfg
    if isDryRun then ⟨some newCssFileFullPath, w⟩
    else
      match fsRead w.fs newCssFileFullPath with
      | some fd =>
        let existingCssContent := fileText fd
        if strIncludes existingCssContent cssContent then ⟨some newCssFileFullPath, w⟩
        else
          let existing2 :=
            if strTrim existingCssContent ≠ "" then existingCssContent ++ cssSeparator
            else existingCssContent
          let finalContentToWrite :=
            (if strEndsWith existing2 cssSeparator then existing2
             else existing2 ++ (if existing2 ≠ "" then "\n" else "")) ++ cssContent
          ⟨some newCssFileFullPath,
           fsWriteW w newCssFileFullPath (FileData.text finalContentToWrite)⟩
      | none =>
        ⟨some newCssFileFullPath, fsWriteW w newCssFileFullPath (FileData.text cssContent)⟩

/-! ## Persistence: legacy `saveCssFile` (older variant in the repository) -/

/-- The Tailwind boilerplate preamble of the legacy variant. -/
def tailwindDirectives : String := "@tailwind base;\n@tailwind components;\n@tailwind utilities;"

/-- Legacy `saveCssFile(cssContent, cssFileBaseName, sourceHtmlFilePath)`:
prepends the Tailwind directives when the existing content lacks them
(replacing the file), skips the write only when the existing content has
the directives and already includes the new content, otherwise appends
after a dated separator.  `nowIso` stands for `new Date().toISOString()`
and `cssSrcFullPath` for the `CSS_SRC_FULL_PATH` global. -/
def saveCssFileLegacy (w : World) (cssContent cssFileBaseName sourceHtmlFilePath
    nowIso cssSrcFullPath : String) : SaveCssResult :=
  if cssContent = "" then ⟨none, w⟩
  else
    let p := pathJoin cssSrcFullPath (cssFileBaseName ++ ".css")
    let fileExisted := (fsRead w.fs p).isSome
    let existingCssContent :=
      match fsRead w.fs p with
      | some fd => strTrim (fileText fd)
      | none => ""
    let finalize := fun (contentToWrite : String) =>
      let finalOutput := if strTrim contentToWrite ≠ "" then strTrim contentToWrite ++ "\n" else ""
      if fileExisted = false || strTrim finalOutput ≠ existingCssContent then
        SaveCssResult.mk (some p) (fsWriteW w p (FileData.text finalOutput))
      else SaveCssResult.mk (some p) w
    if strIncludes existingCssContent "@tailwind base;" = false then
      finalize (tailwindDirectives ++ "\n\n" ++ cssContent)
    else if strIncludes existingCssContent cssContent then ⟨some p, w⟩
    else
      finalize (existingCssContent ++ "\n\n/* --- Appended styles from " ++
        pathBasenameExt sourceHtmlFilePath "" ++ " on " ++ nowIso ++ " --- */\n" ++ cssContent)

/-! ## Link Injector (embedding of `addCssLinkToHtmlHead`, main engine) -/

/-- The relative href the injector computes: from the HTML file's directory
to `compiledCssLinkDir / (base + ".css")`, forward-slashed. -/
def computedCssHref (htmlFilePath cssFileBaseName : String) (cfg : Config) : String :=
  let targetCssFileName := cssFileBaseName ++ ".css"
  let htmlFileDir := pathDirname htmlFilePath
  let compiledCssDirAbsolute := pathResolve cfg.projectRoot cfg.compiledCssLinkDir
  replaceBackslashes (pathRelative htmlFileDir (pathJoin compiledCssDirAbsolute targetCssFileName))

/-- The scan over `$('head link[rel="stylesheet"]')` for an href that,
backslash-normalized, equals the computed href (falsy hrefs skipped). -/
def linkAlreadyExists (doc : HtmlDoc) (href : String) : Bool :=
  doc.headLinks.any (fun ex => ex ≠ "" && replaceBackslashes ex = href)

/-- `addCssLinkToHtmlHead($, htmlFilePath, cssFileBaseName, config)`:
no-op (returning `false`) when a matching link exists; otherwise create
`<head>` if missing, append the link, and return `true`. -/
def addCssLinkToHtmlHead (doc : HtmlDoc) (htmlFilePath cssFileBaseName : String)
    (cfg : Config) : HtmlDoc × Bool :=
  let rel := computedCssHref htmlFilePath cssFileBaseName cfg
  if linkAlreadyExists doc rel then (doc, false)
  else ({ doc with hasHead := true, headLinks := doc.headLinks ++ [rel] }, true)

/-! ## Script Extractor (embedding of `extractJsFromHtml`, main engine) -/

/-- The match criterion of the collection pass: a falsy `src` attribute
(absent or empty) and non-blank inline body. -/
def jsMatch (sc : Script) : Bool :=
  (match sc.src with | none => true | some s => s = "") && strTrim sc.body ≠ ""

/-- One record of `extractedJsFiles`: intended output path and content. -/
structure JsFileRec where
  sourcePath : String
  content : String
deriving DecidableEq, Repr

/-- Output path for a JS file name under the configured strategy. -/
def jsOutPath (name htmlFilePath : String) (cfg : Config) : String :=
  if cfg.jsOutputDirStrategy = "centralized" then
    pathJoin (pathResolve cfg.projectRoot cfg.jsCentralOutputDir) name
  else pathJoin (pathDirname htmlFilePath) name

/-- The per-script body of the extraction loop.  `origIdx` is the script's
index in the `$('script')` selection (all script tags); `matchedCount` the
number of matched scripts; `ts` stands for `Date.now()`.  In a dry run the
record is pushed but the tag and filesystem stay untouched.  In a real run
a pre-existing file at the computed path — regardless of its content —
triggers the `-conflict-` timestamp rename before the write. -/
def processOneScript (w : World) (sc : Script) (origIdx matchedCount : Nat)
    (safeJsFileBase htmlFilePath : String) (cfg : Config) (isDryRun : Bool) (ts : Nat) :
    Script × JsFileRec × World :=
  let scriptContent := strTrim sc.body
  let suffix := if matchedCount > 1 then "_s" ++ Nat.repr (origIdx + 1) else ""
  let jsFileNameBase := safeJsFileBase ++ suffix
  let jsFileNameForSrcAttr := jsFileNameBase ++ ".js"
  let jsFileFullPath := jsOutPath jsFileNameForSrcAttr htmlFilePath cfg
  if isDryRun then (sc, ⟨jsFileFullPath, scriptContent⟩, w)
  else
    let conflict := pathExistsW w jsFileFullPath
    let finalName :=
      if conflict then jsFileNameBase ++ "-conflict-" ++ Nat.repr ts ++ ".js"
      else jsFileNameForSrcAttr
    let finalPath := if conflict then jsOutPath finalName htmlFilePath cfg else jsFileFullPath
    let w' := fsWriteW w finalPath (FileData.text scriptContent)
    let srcAttrPath :=
      if cfg.jsOutputDirStrategy = "centralized" then
        replaceBackslashes (pathRelative (pathDirname htmlFilePath) finalPath)
      else finalName
    ({ sc with body := "", src := some srcAttrPath }, ⟨finalPath, scriptContent⟩, w')

/-- Result of `extractJsFromHtml`. -/
structure JsExtractResult where
  scripts : List Script
  extractedJsFiles : List JsFileRec
  jsModifiedInHtml : Bool
  world : World
deriving DecidableEq, Repr

/-- The extraction loop over the script tags in document order, carrying
each tag's original selection index. -/
def extractJsLoop (safeJsFileBase htmlFilePath : String) (cfg : Config)
    (isDryRun : Bool) (ts : Nat) (matchedCount : Nat) :
    World → Nat → List Script → JsExtractResult
  | w, _, [] => ⟨[], [], false, w⟩
  | w, i, sc :: rest =>
    if jsMatch sc then
      let p := processOneScript w sc i matchedCount safeJsFileBase htmlFilePath cfg isDryRun ts
      let r := extractJsLoop safeJsFileBase htmlFilePath cfg isDryRun ts matchedCount p.2.2 (i + 1) rest
      ⟨p.1 :: r.scripts, p.2.1 :: r.extractedJsFiles, true, r.world⟩
    else
      let r := extractJsLoop safeJsFileBase htmlFilePath cfg isDryRun ts matchedCount w (i + 1) rest
      ⟨sc :: r.scripts, r.extractedJsFiles, r.jsModifiedInHtml, r.world⟩

/-- `extractJsFromHtml($, htmlFilePath, htmlFileBaseName, config, isDryRun)`. -/
def extractJsFromHtml (w : World) (doc : HtmlDoc) (htmlFilePath htmlFileBaseName : String)
    (cfg : Config) (isDryRun : Bool) (ts : Nat) : HtmlDoc × JsExtractResult :=
  let matchedCount := (doc.scripts.filter jsMatch).length
  let safeJsFileBase := generateSafeBaseName htmlFileBaseName "JS" cfg
  let r := extractJsLoop safeJsFileBase htmlFilePath cfg isDryRun ts matchedCount w 0 doc.scripts
  ({ doc with scripts := r.scripts }, r)

/-! ## Document Refactor Orchestrator (embedding of `processHtmlFile`) -/

/-- `cheerio.load` over stored file data: HTML files parse to their stored
document; other text parses to a document with no style, script or link
tags. -/
def parseHtmlFile : FileData → HtmlDoc
  | .html d => d
  | .text _ => ⟨[], [], [], [], false⟩

/-- The `copyToDist` loop over extracted JS files: `fs.copy` of each
record's source to the mirrored path under `distDir` (errors for a missing
source are caught and logged; a dry run only logs). -/
def distCopyJs (cfg : Config) (isDryRun : Bool) : World → List JsFileRec → World
  | w, [] => w
  | w, f :: rest =>
    let jsDestPath := pathJoin (pathResolve cfg.projectRoot cfg.distDir)
      (pathRelative (pathResolve cfg.projectRoot cfg.distSourceRoot) f.sourcePath)
    let w' :=
      if isDryRun then w
      else
        match fsRead w.fs f.sourcePath with
        | some fd => fsWriteW w jsDestPath fd
        | none => w
    distCopyJs cfg isDryRun w' rest

/-- `processHtmlFile(htmlFilePath, config, isDryRun)`: read and parse the
document (a read failure is caught and reported as `false`), run the style
extractor, save/merge CSS and inject the stylesheet link, run the script
extractor, then write the HTML back only when the serialized document
differs from the original (with optional backup), and mirror to `distDir`
when configured.  Returns the changed flag and the new world. -/
def processHtmlFile (w : World) (htmlFilePath : String) (cfg : Config)
    (isDryRun : Bool) (ts : Nat) : Bool × World :=
  let htmlFileRawBaseName := pathBasenameExt htmlFilePath ".html"
  match fsRead w.fs htmlFilePath with
  | none => (false, w)
  | some fd0 =>
    let doc0 := parseHtmlFile fd0
    let r1 := extractCssFromHtml doc0 htmlFileRawBaseName
    let cssBranch :=
      if r1.cssModified || r1.cssContent ≠ "" then
        let cssFileBase := generateCssFileBaseName htmlFilePath cfg
        let sres := saveCssFile w r1.cssContent cssFileBase htmlFilePath cfg isDryRun
        match sres.savedPath with
        | some _ =>
          let l := addCssLinkToHtmlHead r1.doc htmlFilePath cssFileBase cfg
          (l.1, l.2, sres.world)
        | none => (r1.doc, false, sres.world)
      else (r1.doc, false, w)
    let doc2 := cssBranch.1
    let newCssLinkAdded := cssBranch.2.1
    let w2 := cssBranch.2.2
    let sanitizedHtmlBaseForJs := sanitizeStringForFilename htmlFileRawBaseName
    let jres := extractJsFromHtml w2 doc2 htmlFilePath sanitizedHtmlBaseForJs cfg isDryRun ts
    let doc3 := jres.1.scripts
    let finalDoc : HtmlDoc := { doc2 with scripts := doc3 }
    let jr := jres.2
    let effectiveChangeMade := r1.cssModified || jr.jsModifiedInHtml || newCssLinkAdded
    if effectiveChangeMade then
      if isDryRun then (true, jr.world)
      else
        let main :=
          if finalDoc = doc0 then (false, jr.world)
          else
            let wB :=
              if cfg.createBackups then
                match fsRead jr.world.fs htmlFilePath with
                | some cur => fsWriteW jr.world (htmlFilePath ++ ".bak") cur
                | none => jr.world
              else jr.world
            (true, fsWriteW wB htmlFilePath (FileData.html finalDoc))
        let w5 :=
          if cfg.copyToDist then
            let htmlDestPath := pathJoin (pathResolve cfg.projectRoot cfg.distDir)
              (pathRelative (pathResolve cfg.projectRoot cfg.distSourceRoot) htmlFilePath)
            distCopyJs cfg false (fsWriteW main.2 htmlDestPath (FileData.html finalDoc))
              jr.extractedJsFiles
          else main.2
        (main.1, w5)
    else (false, jr.world)

/-! ## Batch Driver (embedding of the `runRefactorProcess` loop)

Discovery (globbing) is external input here: the driver is embedded from
the discovered file list onward.  It returns the scanned count, the
changed count, and the final world. -/

/-- The per-file loop of `runRefactorProcess`. -/
def runRefactorLoop (cfg : Config) (isDryRun : Bool) (ts : Nat) :
    World → List String → Nat × Nat × World
  | w, [] => (0, 0, w)
  | w, p :: rest =>
    let r := processHtmlFile w p cfg isDryRun ts
    let t := runRefactorLoop cfg isDryRun ts r.2 rest
    (t.1 + 1, (if r.1 then t.2.1 + 1 else t.2.1), t.2.2)

/-- `runRefactorProcess(config, isDryRun)` from the discovered file list
onward (directory pre-creation has no effect on the file map). -/
def runRefactorProcess (w : World) (files : List String) (cfg : Config)
    (isDryRun : Bool) (ts : Nat) : Nat × Nat × World :=
  runRefactorLoop cfg isDryRun ts w files

/-! ## Digest length facts -/

/-- Flattening two-character hex chunks doubles the length. -/
theorem flatten_map_byteHex_length (l : List Nat) :
    ((l.map byteHex).flatten).length = 2 * l.length := by
  induction l with
  | nil => simp
  | cons b bs ih => simp [byteHex, ih]; omega

/-- A SHA-256 digest always has 32 bytes. -/
theorem sha256Bytes_length (msg : List Nat) : (sha256Bytes msg).length = 32 := by
  simp [sha256Bytes, digestBytes, wordBytes]

/-- The hex digest always has 64 characters. -/
theorem sha256HexChars_length (s : String) : (sha256HexChars s).length = 64 := by
  rw [sha256HexChars, flatten_map_byteHex_length, sha256Bytes_length]

/-- `digest('hex').substring(0, 8)` always has 8 characters. -/
theorem sha256HexPrefix8_length (s : String) : (sha256HexPrefix 8 s).length = 8 := by
  simp [sha256HexPrefix, String.length, sha256HexChars_length]

/-! ## Claim C3: length bound of `generateSafeBaseName` -/

/-- A configuration with the source's default values except for the
maximum base-filename length. -/
def mkConfig (maxLen : Nat) : Config :=
  { projectRoot := "/r", stylesOutputDir := "styles",
    cssOutputDirStrategy := "centralized", jsOutputDirStrategy := "relativeToHtml",
    jsCentralOutputDir := "js/extracted", compiledCssLinkDir := "dist/css",
    htmlPrefixesToOmitFromCssName := ["src/public/", "public/", "src/pages/", "src/"],
    maxFilenameLength := maxLen, createBackups := false, copyToDist := false,
    distSourceRoot := ".", distDir := "dist" }

/-- C3, counterexample: with `maxFilenameLength = 10` and a 20-character
input, the generated base name has 19 characters — the code keeps at least
10 characters of the truncated name (`Math.max(10, ...)`) plus the
9-character hash suffix, so the claimed bound
`length ≤ config.maxFilenameLength` fails. -/
theorem claim_C3_counterexample :
    (generateSafeBaseName "aaaaaaaaaaaaaaaaaaaa" "CSS" (mkConfig 10)).length = 19 ∧
    ¬ (generateSafeBaseName "aaaaaaaaaaaaaaaaaaaa" "CSS" (mkConfig 10)).length
        ≤ (mkConfig 10).maxFilenameLength := by
  constructor
  · decide
  · decide

/-- C3, amended: whenever the effective maximum (`config.maxFilenameLength`,
or the fallback `100` when that is `0`) is at least `19`, the base name
returned by `generateSafeBaseName` is at most that maximum long; and a
name whose sanitized form exceeds the maximum is truncated to
`maximum - 9` characters and suffixed with `_` plus the first 8 hex
characters of the SHA-256 hash of the original (pre-sanitization,
pre-truncation) candidate string. -/
theorem claim_C3_amended (name ctx : String) (cfg : Config)
    (h : 19 ≤ effectiveMaxLength cfg) :
    (generateSafeBaseName name ctx cfg).length ≤ effectiveMaxLength cfg ∧
    ((sanitizeStringForFilename name).length > effectiveMaxLength cfg →
      generateSafeBaseName name ctx cfg =
        String.mk ((sanitizeStringForFilename name).data.take (effectiveMaxLength cfg - 9))
          ++ "_" ++ sha256HexPrefix 8 name) := by
  have h8 := sha256HexPrefix8_length name
  have hkey : (sanitizeStringForFilename name).length > effectiveMaxLength cfg →
      generateSafeBaseName name ctx cfg =
        String.mk ((sanitizeStringForFilename name).data.take (effectiveMaxLength cfg - 9))
          ++ "_" ++ sha256HexPrefix 8 name := by
    intro hlen
    simp only [generateSafeBaseName]
    rw [if_pos hlen, h8]
    have harg : (max 10 (if ((effectiveMaxLength cfg : Int) - ((8 : Nat) : Int) - 1) > 0
        then ((effectiveMaxLength cfg : Int) - ((8 : Nat) : Int) - 1).toNat else 10))
        = effectiveMaxLength cfg - 9 := by
      split
      · omega
      · next hneg => exfalso; omega
    rw [harg]
  constructor
  · by_cases hlen : (sanitizeStringForFilename name).length > effectiveMaxLength cfg
    · rw [hkey hlen, String.length_append, String.length_append, h8]
      have hmk : (String.mk ((sanitizeStringForFilename name).data.take
          (effectiveMaxLength cfg - 9))).length
          = min (effectiveMaxLength cfg - 9) (sanitizeStringForFilename name).data.length := by
        have hr : (String.mk ((sanitizeStringForFilename name).data.take
            (effectiveMaxLength cfg - 9))).length
            = ((sanitizeStringForFilename name).data.take (effectiveMaxLength cfg - 9)).length := rfl
        rw [hr, List.length_take]
      have hsl : (sanitizeStringForFilename name).length
          = (sanitizeStringForFilename name).data.length := rfl
      have h1 : ("_" : String).length = 1 := rfl
      rw [hmk, h1]
      omega
    · simp only [generateSafeBaseName]
      rw [if_neg hlen]
      omega
  · exact hkey

/-- C3 witness: the amended bound at a concrete long input. -/
theorem claim_C3_amended_witness :
    19 ≤ effectiveMaxLength (mkConfig 20) ∧
    (generateSafeBaseName "aaaaaaaaaaaaaaaaaaaaaaaaaaaaaa" "CSS" (mkConfig 20)).length
      ≤ effectiveMaxLength (mkConfig 20) :=
  ⟨by decide,
   (claim_C3_amended "aaaaaaaaaaaaaaaaaaaaaaaaaaaaaa" "CSS" (mkConfig 20) (by decide)).1⟩

/-! ## Style-attribute pass: structure lemmas (for claims C5 and C10) -/

/-- What one pass of the style-attribute loop does to a single element,
independently of the threaded state. -/
def styleElemTransform (e : StyledElem) : StyledElem :=
  match e.style with
  | none => e
  | some raw =>
    if strTrim raw = "" then e
    else addClass (generateClassFromStyle (normalizeStyleString raw)) { e with style := none }

/-- Concatenation of the rule blocks of a list of map entries. -/
def rulesConcat (base : String) : List (String × String) → String
  | [] => ""
  | p :: rest => attrRuleText base p.2 p.1 ++ rulesConcat base rest

theorem rulesConcat_append (base : String) (a b : List (String × String)) :
    rulesConcat base (a ++ b) = rulesConcat base a ++ rulesConcat base b := by
  induction a with
  | nil => simp [rulesConcat]
  | cons p rest ih => simp [rulesConcat, ih, String.append_assoc]

/-- Well-formedness of the run-local map: every value is the generated
class of its key. -/
def styleMapWF (m : List (String × String)) : Prop :=
  ∀ p ∈ m, p.2 = generateClassFromStyle p.1

/-- Key distinctness of the run-local map. -/
def keysNodup (m : List (String × String)) : Prop := (m.map Prod.fst).Nodup

theorem lookupMap_some (m : List (String × String)) (k cls : String)
    (h : lookupMap m k = some cls) : ∃ p, p ∈ m ∧ p.1 = k ∧ p.2 = cls := by
  unfold lookupMap at h
  cases hf : m.find? (fun e => e.1 = k) with
  | none => rw [hf] at h; simp at h
  | some p =>
    rw [hf] at h
    simp at h
    refine ⟨p, List.mem_of_find?_eq_some hf, ?_, by simpa using h⟩
    have := List.find?_some hf
    exact of_decide_eq_true this

theorem lookupMap_none (m : List (String × String)) (k : String)
    (h : lookupMap m k = none) : ∀ p ∈ m, p.1 ≠ k := by
  unfold lookupMap at h
  cases hf : m.find? (fun e => e.1 = k) with
  | some p => rw [hf] at h; simp at h
  | none =>
    intro p hp
    have := List.find?_eq_none.mp hf p hp
    simpa using this

/-- Branch equation: element without a `style` attribute. -/
theorem processStyleAttrElem_none (base : String) (st : CssAttrState) (e : StyledElem)
    (hs : e.style = none) : processStyleAttrElem base st e = (st, e) := by
  unfold processStyleAttrElem
  rw [hs]

/-- Branch equation: blank `style` attribute value. -/
theorem processStyleAttrElem_blank (base : String) (st : CssAttrState) (e : StyledElem)
    (raw : String) (hs : e.style = some raw) (hb : strTrim raw = "") :
    processStyleAttrElem base st e = (st, e) := by
  unfold processStyleAttrElem
  rw [hs]
  simp [hb]

/-- Branch equation: the normalized style was already in the map. -/
theorem processStyleAttrElem_hit (base : String) (st : CssAttrState) (e : StyledElem)
    (raw cls : String) (hs : e.style = some raw) (hb : strTrim raw ≠ "")
    (hl : lookupMap st.styleMap (normalizeStyleString raw) = some cls) :
    processStyleAttrElem base st e =
      ({ st with modified := true }, addClass cls { e with style := none }) := by
  unfold processStyleAttrElem
  rw [hs]
  simp [hb, hl]

/-- Branch equation: a new normalized style, minting a class and a rule. -/
theorem processStyleAttrElem_miss (base : String) (st : CssAttrState) (e : StyledElem)
    (raw : String) (hs : e.style = some raw) (hb : strTrim raw ≠ "")
    (hl : lookupMap st.styleMap (normalizeStyleString raw) = none) :
    processStyleAttrElem base st e =
      ({ css := st.css ++ attrRuleText base
            (generateClassFromStyle (normalizeStyleString raw)) (normalizeStyleString raw),
         styleMap := st.styleMap ++ [(normalizeStyleString raw,
            generateClassFromStyle (normalizeStyleString raw))],
         modified := true },
       addClass (generateClassFromStyle (normalizeStyleString raw)) { e with style := none }) := by
  unfold processStyleAttrElem
  rw [hs]
  simp [hb, hl]

/-- One step of the style-attribute pass: the element is transformed by the
state-independent `styleElemTransform`, and the state grows by zero or one
well-formed entries whose rule blocks are appended to the CSS text. -/
theorem processStyleAttrElem_spec (base : String) (st : CssAttrState) (e : StyledElem)
    (hwf : styleMapWF st.styleMap) :
    (processStyleAttrElem base st e).2 = styleElemTransform e ∧
    styleMapWF (processStyleAttrElem base st e).1.styleMap ∧
    ∃ ext, (processStyleAttrElem base st e).1.styleMap = st.styleMap ++ ext ∧
      (processStyleAttrElem base st e).1.css = st.css ++ rulesConcat base ext := by
  cases hs : e.style with
  | none =>
    rw [processStyleAttrElem_none base st e hs]
    exact ⟨by simp [styleElemTransform, hs], hwf, [], by simp, by simp [rulesConcat]⟩
  | some raw =>
    by_cases hb : strTrim raw = ""
    · rw [processStyleAttrElem_blank base st e raw hs hb]
      exact ⟨by simp [styleElemTransform, hs, hb], hwf, [], by simp, by simp [rulesConcat]⟩
    · cases hl : lookupMap st.styleMap (normalizeStyleString raw) with
      | some cls =>
        obtain ⟨p, hpm, hk, hv⟩ := lookupMap_some _ _ _ hl
        have hcls : cls = generateClassFromStyle (normalizeStyleString raw) := by
          rw [← hv, hwf p hpm, hk]
        rw [processStyleAttrElem_hit base st e raw cls hs hb hl]
        refine ⟨by simp [styleElemTransform, hs, hb, hcls], hwf, [], by simp, by simp [rulesConcat]⟩
      | none =>
        rw [processStyleAttrElem_miss base st e raw hs hb hl]
        refine ⟨by simp [styleElemTransform, hs, hb], ?_, [(normalizeStyleString raw,
          generateClassFromStyle (normalizeStyleString raw))], rfl, by simp [rulesConcat]⟩
        intro p hp
        rcases List.mem_append.mp hp with h1 | h2
        · exact hwf p h1
        · rcases List.mem_singleton.mp h2 with rfl
          rfl

/-- One step preserves key distinctness. -/
theorem processStyleAttrElem_nodup (base : String) (st : CssAttrState) (e : StyledElem)
    (hnd : keysNodup st.styleMap) :
    keysNodup (processStyleAttrElem base st e).1.styleMap := by
  cases hs : e.style with
  | none => rw [processStyleAttrElem_none base st e hs]; exact hnd
  | some raw =>
    by_cases hb : strTrim raw = ""
    · rw [processStyleAttrElem_blank base st e raw hs hb]; exact hnd
    · cases hl : lookupMap st.styleMap (normalizeStyleString raw) with
      | some cls => rw [processStyleAttrElem_hit base st e raw cls hs hb hl]; exact hnd
      | none =>
        rw [processStyleAttrElem_miss base st e raw hs hb hl]
        unfold keysNodup
        rw [List.map_append, List.nodup_append]
        refine ⟨hnd, by simp, ?_⟩
        intro k hk hk2
        simp only [List.map_cons, List.map_nil, List.mem_singleton] at hk2
        obtain ⟨p, hpm, hp1⟩ := List.mem_map.mp hk
        subst hk2
        exact lookupMap_none _ _ hl p hpm (by rw [hp1])

/-- One step records the element's normalized style among the map keys. -/
theorem processStyleAttrElem_key_mem (base : String) (st : CssAttrState) (e : StyledElem)
    (raw : String) (hs : e.style = some raw) (hb : strTrim raw ≠ "") :
    normalizeStyleString raw ∈ (processStyleAttrElem base st e).1.styleMap.map Prod.fst := by
  cases hl : lookupMap st.styleMap (normalizeStyleString raw) with
  | some cls =>
    rw [processStyleAttrElem_hit base st e raw cls hs hb hl]
    obtain ⟨p, hpm, hk, hv⟩ := lookupMap_some _ _ _ hl
    exact List.mem_map.mpr ⟨p, hpm, hk⟩
  | none =>
    rw [processStyleAttrElem_miss base st e raw hs hb hl]
    simp

/-- The whole style-attribute pass: elements map through
`styleElemTransform`; the final map extends the initial one with
well-formed entries whose rule blocks are, in order, exactly what was
appended to the CSS text. -/
theorem styleAttrPass_spec (base : String) (elems : List StyledElem) (st : CssAttrState)
    (hwf : styleMapWF st.styleMap) :
    (styleAttrPass base st elems).2 = elems.map styleElemTransform ∧
    styleMapWF (styleAttrPass base st elems).1.styleMap ∧
    ∃ ext, (styleAttrPass base st elems).1.styleMap = st.styleMap ++ ext ∧
      (styleAttrPass base st elems).1.css = st.css ++ rulesConcat base ext := by
  induction elems generalizing st with
  | nil =>
    exact ⟨rfl, hwf, [], by simp [styleAttrPass], by simp [rulesConcat, styleAttrPass]⟩
  | cons e es ih =>
    obtain ⟨he, hwf1, ext1, hm1, hc1⟩ := processStyleAttrElem_spec base st e hwf
    obtain ⟨hes, hwf2, ext2, hm2, hc2⟩ := ih (processStyleAttrElem base st e).1 hwf1
    refine ⟨?_, ?_, ext1 ++ ext2, ?_, ?_⟩
    · show ((styleAttrPass base st (e :: es)).2) = _
      simp only [styleAttrPass]
      rw [he, hes]
      rfl
    · show styleMapWF ((styleAttrPass base st (e :: es)).1).styleMap
      simpa only [styleAttrPass] using hwf2
    · show ((styleAttrPass base st (e :: es)).1).styleMap = _
      simp only [styleAttrPass]
      rw [hm2, hm1, List.append_assoc]
    · show ((styleAttrPass base st (e :: es)).1).css = _
      simp only [styleAttrPass]
      rw [hc2, hc1, rulesConcat_append, String.append_assoc]

/-- The whole pass preserves key distinctness. -/
theorem styleAttrPass_nodup (base : String) (elems : List StyledElem) (st : CssAttrState)
    (hwf : styleMapWF st.styleMap) (hnd : keysNodup st.styleMap) :
    keysNodup (styleAttrPass base st elems).1.styleMap := by
  induction elems generalizing st with
  | nil => exact hnd
  | cons e es ih =>
    have h1 := processStyleAttrElem_nodup base st e hnd
    have hwf1 := (processStyleAttrElem_spec base st e hwf).2.1
    simpa only [styleAttrPass] using ih (processStyleAttrElem base st e).1 hwf1 h1

/-- Any element of the pass with a non-blank style attribute leaves its
normalized style among the final map keys. -/
theorem styleAttrPass_key_mem (base : String) (elems : List StyledElem) (st : CssAttrState)
    (e : StyledElem) (raw : String) (hs : e.style = some raw)
    (hb : strTrim raw ≠ "") (hwf : styleMapWF st.styleMap) (he : e ∈ elems) :
    normalizeStyleString raw ∈ (styleAttrPass base st elems).1.styleMap.map Prod.fst := by
  induction elems generalizing st with
  | nil => cases he
  | cons e0 es ih =>
    have hwf1 := (processStyleAttrElem_spec base st e0 hwf).2.1
    rcases List.mem_cons.mp he with rfl | hin
    · have hk := processStyleAttrElem_key_mem base st e raw hs hb
      obtain ⟨-, -, ext2, hm2, -⟩ :=
        styleAttrPass_spec base es (processStyleAttrElem base st e).1 hwf1
      show normalizeStyleString raw ∈ ((styleAttrPass base st (e :: es)).1).styleMap.map Prod.fst
      simp only [styleAttrPass]
      rw [hm2, List.map_append]
      exact List.mem_append.mpr (Or.inl hk)
    · show normalizeStyleString raw ∈ ((styleAttrPass base st (e0 :: es)).1).styleMap.map Prod.fst
      simpa only [styleAttrPass] using ih (processStyleAttrElem base st e0).1 hwf1 hin

/-! ## Style Extractor results (claims C5 and C10) -/

theorem styleMapWF_nil : styleMapWF [] := by
  intro p hp
  cases hp

/-- An element with a non-blank style attribute is transformed by stripping
the attribute and adding the class generated from its normalized style. -/
theorem styleElemTransform_active (e : StyledElem) (raw : String)
    (hs : e.style = some raw) (hb : strTrim raw ≠ "") :
    styleElemTransform e =
      addClass (generateClassFromStyle (normalizeStyleString raw)) { e with style := none } := by
  unfold styleElemTransform
  rw [hs]
  simp [hb]

/-- The element list after CSS extraction is the element-wise transform. -/
theorem extractCssFromHtml_elems (doc : HtmlDoc) (base : String) :
    (extractCssFromHtml doc base).doc.elems = doc.elems.map styleElemTransform :=
  (styleAttrPass_spec base doc.elems _ styleMapWF_nil).1

/-- The deduplication map of a run has pairwise distinct keys. -/
theorem extractCssStyleMap_nodup (doc : HtmlDoc) (base : String) :
    keysNodup (extractCssStyleMap doc base) :=
  styleAttrPass_nodup base doc.elems _ styleMapWF_nil List.nodup_nil

/-- The (untrimmed) extracted CSS text is the `<style>`-tag text followed by
exactly one rule block per deduplication-map entry, in insertion order. -/
theorem extractCss_css_decomp (doc : HtmlDoc) (base : String) :
    (styleAttrPass base ⟨(styleTagPass base 0 doc.styleTags).1, [],
        (styleTagPass base 0 doc.styleTags).2.2⟩ doc.elems).1.css
      = (styleTagPass base 0 doc.styleTags).1
          ++ rulesConcat base (extractCssStyleMap doc base) := by
  obtain ⟨-, -, ext, hm, hc⟩ := styleAttrPass_spec base doc.elems
    ⟨(styleTagPass base 0 doc.styleTags).1, [], (styleTagPass base 0 doc.styleTags).2.2⟩
    styleMapWF_nil
  rw [hc]
  have : extractCssStyleMap doc base = ext := by
    unfold extractCssStyleMap
    rw [hm]
    simp
  rw [this]

/-- C5, confirmed: within one document-processing run, two elements whose
style attributes have the same normalized form (same declarations, any
order and whitespace) both receive the class generated from that normalized
form — the same class — the run's deduplication map holds that normalized
form exactly once, and the CSS output consists of the `<style>`-tag text
followed by exactly one rule block per map entry, so exactly one rule is
emitted for the shared declaration set. -/
theorem claim_C5 (doc : HtmlDoc) (base : String) (i j : Nat) (ei ej : StyledElem)
    (ri rj : String)
    (hi : doc.elems[i]? = some ei) (hj : doc.elems[j]? = some ej)
    (hsi : ei.style = some ri) (hsj : ej.style = some rj)
    (hbi : strTrim ri ≠ "") (hbj : strTrim rj ≠ "")
    (hnorm : normalizeStyleString ri = normalizeStyleString rj) :
    ((extractCssFromHtml doc base).doc.elems[i]? =
        some (addClass (generateClassFromStyle (normalizeStyleString ri))
          { ei with style := none })) ∧
    ((extractCssFromHtml doc base).doc.elems[j]? =
        some (addClass (generateClassFromStyle (normalizeStyleString ri))
          { ej with style := none })) ∧
    ((extractCssStyleMap doc base).map Prod.fst).count (normalizeStyleString ri) = 1 ∧
    (styleAttrPass base ⟨(styleTagPass base 0 doc.styleTags).1, [],
        (styleTagPass base 0 doc.styleTags).2.2⟩ doc.elems).1.css
      = (styleTagPass base 0 doc.styleTags).1
          ++ rulesConcat base (extractCssStyleMap doc base) := by
  have he := extractCssFromHtml_elems doc base
  refine ⟨?_, ?_, ?_, extractCss_css_decomp doc base⟩
  · rw [he]
    simp only [List.getElem?_map, hi, Option.map_some']
    rw [styleElemTransform_active ei ri hsi hbi]
  · rw [he]
    simp only [List.getElem?_map, hj, Option.map_some']
    rw [styleElemTransform_active ej rj hsj hbj, hnorm]
  · exact List.count_eq_one_of_mem (extractCssStyleMap_nodup doc base)
      (styleAttrPass_key_mem base doc.elems _ ei ri hsi hbi styleMapWF_nil
        (List.getElem?_mem hi))

/-- The document of the spec's style-dedup scenario: two elements whose
styles differ only in declaration order and whitespace. -/
def styleDedupDoc : HtmlDoc :=
  { styleTags := [],
    elems := [⟨some "color:red;font-weight:bold", []⟩,
              ⟨some "font-weight:bold; color:red", ["keep"]⟩],
    scripts := [], headLinks := [], hasHead := true }

/-- C5 witness: the spec's scenario, evaluated. -/
theorem claim_C5_witness :
    ((extractCssFromHtml styleDedupDoc "page").doc.elems[0]? =
        some (addClass (generateClassFromStyle
          (normalizeStyleString "color:red;font-weight:bold"))
          { style := none, classes := [] })) ∧
    ((extractCssStyleMap styleDedupDoc "page").map Prod.fst).count
        (normalizeStyleString "color:red;font-weight:bold") = 1 :=
  have h := claim_C5 styleDedupDoc "page" 0 1
    ⟨some "color:red;font-weight:bold", []⟩
    ⟨some "font-weight:bold; color:red", ["keep"]⟩
    "color:red;font-weight:bold" "font-weight:bold; color:red"
    (by decide) (by decide) (by decide) (by decide) (by decide) (by decide) (by decide)
  ⟨h.1, h.2.2.1⟩

/-- C10, confirmed: the generated class is a pure function of the
normalized style alone — `css-` followed by the first 8 hex characters of
the SHA-256 of the normalized declarations — so elements in different
documents and runs whose styles normalize identically receive the same
class. -/
theorem claim_C10 (d1 d2 : HtmlDoc) (b1 b2 : String) (i j : Nat)
    (e1 e2 : StyledElem) (r1 r2 : String)
    (hi : d1.elems[i]? = some e1) (hj : d2.elems[j]? = some e2)
    (h1 : e1.style = some r1) (h2 : e2.style = some r2)
    (hb1 : strTrim r1 ≠ "") (hb2 : strTrim r2 ≠ "")
    (hn : normalizeStyleString r1 = normalizeStyleString r2) :
    ((extractCssFromHtml d1 b1).doc.elems[i]? =
        some (addClass (generateClassFromStyle (normalizeStyleString r1))
          { e1 with style := none })) ∧
    ((extractCssFromHtml d2 b2).doc.elems[j]? =
        some (addClass (generateClassFromStyle (normalizeStyleString r1))
          { e2 with style := none })) ∧
    generateClassFromStyle (normalizeStyleString r1) =
      "css-" ++ sha256HexPrefix 8 (normalizeStyleString r1) := by
  refine ⟨?_, ?_, rfl⟩
  · rw [extractCssFromHtml_elems d1 b1]
    simp only [List.getElem?_map, hi, Option.map_some']
    rw [styleElemTransform_active e1 r1 h1 hb1]
  · rw [extractCssFromHtml_elems d2 b2]
    simp only [List.getElem?_map, hj, Option.map_some']
    rw [styleElemTransform_active e2 r2 h2 hb2, hn]

/-- C10 witness: two different documents and base names, one shared
normalized style, same class in both runs. -/
theorem claim_C10_witness :
    ((extractCssFromHtml styleDedupDoc "page").doc.elems[0]? =
        some (addClass (generateClassFromStyle
          (normalizeStyleString "color:red;font-weight:bold"))
          { style := none, classes := [] })) ∧
    ((extractCssFromHtml ⟨["x"], [⟨some " color:red ;font-weight:bold", ["a"]⟩], [], [], false⟩
        "other").doc.elems[0]? =
        some (addClass (generateClassFromStyle
          (normalizeStyleString "color:red;font-weight:bold"))
          { style := none, classes := ["a"] })) :=
  have h := claim_C10 styleDedupDoc
    ⟨["x"], [⟨some " color:red ;font-weight:bold", ["a"]⟩], [], [], false⟩
    "page" "other" 0 0
    ⟨some "color:red;font-weight:bold", []⟩
    ⟨some " color:red ;font-weight:bold", ["a"]⟩
    "color:red;font-weight:bold" " color:red ;font-weight:bold"
    (by decide) (by decide) (by decide) (by decide) (by decide) (by decide) (by decide)
  ⟨h.1, h.2.1⟩

/-! ## Link Injector (claim C8) -/

/-- Backslash normalization is idempotent. -/
theorem replaceBackslashes_idem (s : String) :
    replaceBackslashes (replaceBackslashes s) = replaceBackslashes s := by
  unfold replaceBackslashes
  congr 1
  show ((s.data.map _).map _) = s.data.map _
  rw [List.map_map]
  congr 1
  funext c
  by_cases h : c = '\\'
  · simp [h]
  · simp [h]

/-- The computed href is already backslash-normalized. -/
theorem computedCssHref_norm (p b : String) (cfg : Config) :
    replaceBackslashes (computedCssHref p b cfg) = computedCssHref p b cfg :=
  replaceBackslashes_idem _

/-- A configuration whose compiled-CSS link directory makes the computed
href of the counterexample document empty. -/
def linkCfg : Config := { mkConfig 100 with compiledCssLinkDir := "styles" }

/-- C8, counterexample: when the computed relative href is empty (the
compiled-CSS target path coincides with the document's directory —
`path.relative` returns `""`), the scan skips the falsy href, so a second
invocation appends a second link with the same (empty) href and returns
`true`: the claim's "never yields two `<link>` elements with the same
href" fails as stated. -/
theorem claim_C8_counterexample :
    computedCssHref "/r/styles/x.css/page.html" "x" linkCfg = "" ∧
    ((addCssLinkToHtmlHead
        (addCssLinkToHtmlHead ⟨[], [], [], [], true⟩
          "/r/styles/x.css/page.html" "x" linkCfg).1
        "/r/styles/x.css/page.html" "x" linkCfg).1.headLinks = ["", ""] ∧
     (addCssLinkToHtmlHead
        (addCssLinkToHtmlHead ⟨[], [], [], [], true⟩
          "/r/styles/x.css/page.html" "x" linkCfg).1
        "/r/styles/x.css/page.html" "x" linkCfg).2 = true) := by
  refine ⟨by decide, by decide, by decide⟩

/-- C8, amended: provided the computed relative href is non-empty, the
injector returns `false` and leaves the document unchanged when a matching
stylesheet link already exists; otherwise it appends exactly one link
inside `<head>` (creating `<head>` if absent) and returns `true`; invoking
it twice against the same document and target makes the second invocation
a returning-`false` no-op, and the number of links matching the computed
href never exceeds `max 1` (its initial count). -/
theorem claim_C8_amended (doc : HtmlDoc) (htmlFilePath cssFileBaseName : String)
    (cfg : Config)
    (hrel : computedCssHref htmlFilePath cssFileBaseName cfg ≠ "") :
    (linkAlreadyExists doc (computedCssHref htmlFilePath cssFileBaseName cfg) = true →
      addCssLinkToHtmlHead doc htmlFilePath cssFileBaseName cfg = (doc, false)) ∧
    (linkAlreadyExists doc (computedCssHref htmlFilePath cssFileBaseName cfg) = false →
      addCssLinkToHtmlHead doc htmlFilePath cssFileBaseName cfg =
        ({ doc with hasHead := true, headLinks :=
            doc.headLinks ++ [computedCssHref htmlFilePath cssFileBaseName cfg] }, true)) ∧
    (addCssLinkToHtmlHead (addCssLinkToHtmlHead doc htmlFilePath cssFileBaseName cfg).1
        htmlFilePath cssFileBaseName cfg =
      ((addCssLinkToHtmlHead doc htmlFilePath cssFileBaseName cfg).1, false)) ∧
    (((addCssLinkToHtmlHead doc htmlFilePath cssFileBaseName cfg).1.headLinks.filter
        (fun ex => ex ≠ "" && replaceBackslashes ex =
          computedCssHref htmlFilePath cssFileBaseName cfg)).length
      ≤ max 1 ((doc.headLinks.filter
        (fun ex => ex ≠ "" && replaceBackslashes ex =
          computedCssHref htmlFilePath cssFileBaseName cfg)).length)) := by
  have hnorm := computedCssHref_norm htmlFilePath cssFileBaseName cfg
  by_cases hex : linkAlreadyExists doc (computedCssHref htmlFilePath cssFileBaseName cfg) = true
  · have heq : addCssLinkToHtmlHead doc htmlFilePath cssFileBaseName cfg = (doc, false) := by
      unfold addCssLinkToHtmlHead
      rw [if_pos hex]
    refine ⟨fun _ => heq, fun hc => absurd hex (by simp [hc]), ?_, ?_⟩
    · rw [heq]
      exact heq
    · rw [heq]
      exact le_max_right _ _
  · have hex' : linkAlreadyExists doc (computedCssHref htmlFilePath cssFileBaseName cfg) = false :=
      by simpa using hex
    have heq : addCssLinkToHtmlHead doc htmlFilePath cssFileBaseName cfg =
        ({ doc with hasHead := true, headLinks :=
          doc.headLinks ++ [computedCssHref htmlFilePath cssFileBaseName cfg] }, true) := by
      unfold addCssLinkToHtmlHead
      rw [if_neg hex]
    have hpred : (fun ex => ex ≠ "" && replaceBackslashes ex =
        computedCssHref htmlFilePath cssFileBaseName cfg)
        (computedCssHref htmlFilePath cssFileBaseName cfg) = true := by
      simp only [hnorm]
      simp [hrel]
    have hnone : ∀ ex ∈ doc.headLinks, ¬ ((ex ≠ "" && replaceBackslashes ex =
        computedCssHref htmlFilePath cssFileBaseName cfg) = true) := by
      intro ex hm hc
      have : linkAlreadyExists doc (computedCssHref htmlFilePath cssFileBaseName cfg) = true := by
        unfold linkAlreadyExists
        exact List.any_eq_true.mpr ⟨ex, hm, hc⟩
      exact hex this
    have hmem2 : linkAlreadyExists
        ({ doc with hasHead := true, headLinks :=
          doc.headLinks ++ [computedCssHref htmlFilePath cssFileBaseName cfg] } : HtmlDoc)
        (computedCssHref htmlFilePath cssFileBaseName cfg) = true := by
      unfold linkAlreadyExists
      refine List.any_eq_true.mpr ⟨computedCssHref htmlFilePath cssFileBaseName cfg, ?_, hpred⟩
      exact List.mem_append.mpr (Or.inr (List.mem_singleton.mpr rfl))
    refine ⟨fun hc => absurd hc (by simp [hex']), fun _ => heq, ?_, ?_⟩
    · rw [heq]
      show addCssLinkToHtmlHead _ _ _ _ = _
      unfold addCssLinkToHtmlHead
      rw [if_pos hmem2]
    · rw [heq]
      show (((doc.headLinks ++ [computedCssHref htmlFilePath cssFileBaseName cfg]).filter _).length ≤ _)
      rw [List.filter_append]
      have h1 : doc.headLinks.filter (fun ex => ex ≠ "" && replaceBackslashes ex =
          computedCssHref htmlFilePath cssFileBaseName cfg) = [] := by
        rw [List.filter_eq_nil_iff]
        exact hnone
      rw [h1]
      simp only [List.nil_append]
      exact le_trans (List.length_filter_le _ _) (by simp)

/-- C8 witness: a concrete document and target, injector invoked twice. -/
theorem claim_C8_amended_witness :
    computedCssHref "/r/pages/about.html" "pages_about" (mkConfig 100) ≠ "" ∧
    addCssLinkToHtmlHead
        (addCssLinkToHtmlHead ⟨[], [], [], ["other.css"], true⟩
          "/r/pages/about.html" "pages_about" (mkConfig 100)).1
        "/r/pages/about.html" "pages_about" (mkConfig 100) =
      ((addCssLinkToHtmlHead ⟨[], [], [], ["other.css"], true⟩
          "/r/pages/about.html" "pages_about" (mkConfig 100)).1, false) :=
  ⟨by decide,
   (claim_C8_amended ⟨[], [], [], ["other.css"], true⟩
      "/r/pages/about.html" "pages_about" (mkConfig 100) (by decide)).2.2.1⟩

/-! ## Filesystem lemmas -/

/-- Read over write. -/
theorem fsRead_fsSet (fs : FS) (p q : String) (fd : FileData) :
    fsRead (fsSet fs p fd) q = if q = p then some fd else fsRead fs q := by
  induction fs with
  | nil =>
    by_cases h : q = p
    · simp [fsSet, fsRead, List.find?, h]
    · have h' : ¬ p = q := fun hh => h hh.symm
      simp [fsSet, fsRead, List.find?, h, h']
  | cons hd tl ih =>
    obtain ⟨r, old⟩ := hd
    by_cases h1 : r = p
    · subst h1
      by_cases h2 : q = r
      · subst h2
        simp [fsSet, fsRead, List.find?]
      · have h2' : ¬ r = q := fun hh => h2 hh.symm
        simp [fsSet, fsRead, List.find?, h2, h2']
    · by_cases h2 : q = r
      · subst h2
        have h1' : ¬ q = p := fun hh => h1 (by rw [← hh])
        simp [fsSet, fsRead, List.find?, h1, h1']
      · have h2' : ¬ r = q := fun hh => h2 hh.symm
        simp only [fsSet, if_neg h1]
        show fsRead ((r, old) :: fsSet tl p fd) q = _
        simp [fsRead, List.find?, h2']
        simpa [fsRead] using ih

/-- Reading the path just written. -/
theorem fsRead_fsWriteW_self (w : World) (p : String) (fd : FileData) :
    fsRead (fsWriteW w p fd).fs p = some fd := by
  simp [fsWriteW, fsRead_fsSet]

/-- Reading another path after a write. -/
theorem fsRead_fsWriteW_other (w : World) (p q : String) (fd : FileData) (h : q ≠ p) :
    fsRead (fsWriteW w p fd).fs q = fsRead w.fs q := by
  simp [fsWriteW, fsRead_fsSet, h]

/-- Existence after a write. -/
theorem pathExistsW_fsWriteW (w : World) (p q : String) (fd : FileData) :
    pathExistsW (fsWriteW w p fd) q = if q = p then true else pathExistsW w q := by
  by_cases h : q = p
  · simp [pathExistsW, fsWriteW, fsRead_fsSet, h]
  · simp [pathExistsW, fsWriteW, fsRead_fsSet, h]

/-! ## Script Extractor naming (claim C7) -/

/-- The matched scripts with their original `$('script')` indices, from a
given starting index. -/
def matchedFrom (i : Nat) (scripts : List Script) : List (Nat × Script) :=
  (scripts.enumFrom i).filter (fun p => jsMatch p.2)

/-- The matched scripts with their original indices among all script tags. -/
def matchedScripts (scripts : List Script) : List (Nat × Script) :=
  (scripts.enum).filter (fun p => jsMatch p.2)

/-- The file name computed for the matched script at original index
`origIdx` when `count` scripts matched. -/
def jsComputedName (safeBase : String) (count origIdx : Nat) : String :=
  (safeBase ++ (if count > 1 then "_s" ++ Nat.repr (origIdx + 1) else "")) ++ ".js"

theorem matchedScripts_eq (scripts : List Script) :
    matchedScripts scripts = matchedFrom 0 scripts := rfl

theorem matchedFrom_cons (i : Nat) (sc : Script) (rest : List Script) :
    matchedFrom i (sc :: rest) =
      if jsMatch sc then (i, sc) :: matchedFrom (i + 1) rest
      else matchedFrom (i + 1) rest := by
  unfold matchedFrom
  by_cases h : jsMatch sc
  · simp [List.enumFrom, List.filter, h]
  · simp [List.enumFrom, List.filter, h]

/-- The `src` attribute value the extractor assigns for a written file
name: relative to the HTML file under the centralized strategy, the bare
name under `relativeToHtml`. -/
def jsSrcAttrFor (name htmlFilePath : String) (cfg : Config) : String :=
  if cfg.jsOutputDirStrategy = "centralized" then
    replaceBackslashes (pathRelative (pathDirname htmlFilePath) (jsOutPath name htmlFilePath cfg))
  else name

/-- The timestamp-uniquified name minted on a path collision. -/
def jsConflictNameOf (safeBase : String) (count origIdx ts : Nat) : String :=
  (safeBase ++ (if count > 1 then "_s" ++ Nat.repr (origIdx + 1) else ""))
    ++ "-conflict-" ++ Nat.repr ts ++ ".js"

/-- Branch equation of the per-script body when the computed path is free
(real run): write there and set `src` to the computed name. -/
theorem processOneScript_noconflict (w : World) (sc : Script) (origIdx count : Nat)
    (safeBase htmlFilePath : String) (cfg : Config) (ts : Nat)
    (h : pathExistsW w (jsOutPath (jsComputedName safeBase count origIdx) htmlFilePath cfg)
      = false) :
    processOneScript w sc origIdx count safeBase htmlFilePath cfg false ts =
      ({ sc with body := "", src := some (jsSrcAttrFor (jsComputedName safeBase count origIdx) htmlFilePath cfg) },
       ⟨jsOutPath (jsComputedName safeBase count origIdx) htmlFilePath cfg, strTrim sc.body⟩,
       fsWriteW w (jsOutPath (jsComputedName safeBase count origIdx) htmlFilePath cfg)
         (FileData.text (strTrim sc.body))) := by
  unfold processOneScript jsSrcAttrFor jsComputedName
  unfold jsComputedName at h
  simp only [Bool.false_eq_true, if_false, h]

/-- Branch equation of the per-script body when a file already exists at
the computed path (real run): regardless of that file's content, the
`-conflict-` timestamp name is minted, the script is written there, and
that name is used for the `src` attribute. -/
theorem processOneScript_conflict (w : World) (sc : Script) (origIdx count : Nat)
    (safeBase htmlFilePath : String) (cfg : Config) (ts : Nat)
    (h : pathExistsW w (jsOutPath (jsComputedName safeBase count origIdx) htmlFilePath cfg)
      = true) :
    processOneScript w sc origIdx count safeBase htmlFilePath cfg false ts =
      ({ sc with body := "", src := some (jsSrcAttrFor (jsConflictNameOf safeBase count origIdx ts) htmlFilePath cfg) },
       ⟨jsOutPath (jsConflictNameOf safeBase count origIdx ts) htmlFilePath cfg, strTrim sc.body⟩,
       fsWriteW w (jsOutPath (jsConflictNameOf safeBase count origIdx ts) htmlFilePath cfg)
         (FileData.text (strTrim sc.body))) := by
  unfold processOneScript jsSrcAttrFor jsConflictNameOf
  unfold jsComputedName at h
  simp [h]

/-- Branch equation of the per-script body in a dry run: record the
computed path and content, touch nothing. -/
theorem processOneScript_dry (w : World) (sc : Script) (origIdx count : Nat)
    (safeBase htmlFilePath : String) (cfg : Config) (ts : Nat) :
    processOneScript w sc origIdx count safeBase htmlFilePath cfg true ts =
      (sc, ⟨jsOutPath (jsComputedName safeBase count origIdx) htmlFilePath cfg, strTrim sc.body⟩, w) := by
  unfold processOneScript jsComputedName
  simp

/-- The extraction loop under collision-free conditions: each matched
script yields one record at its computed path (base name plus positional
suffix from the original index) with its trimmed body. -/
theorem extractJsLoop_names (safeBase htmlFilePath : String) (cfg : Config) (ts : Nat)
    (count : Nat) (scripts : List Script) :
    ∀ (w : World) (i : Nat),
    (∀ p ∈ matchedFrom i scripts,
      pathExistsW w (jsOutPath (jsComputedName safeBase count p.1) htmlFilePath cfg) = false) →
    ((matchedFrom i scripts).map
      (fun p => jsOutPath (jsComputedName safeBase count p.1) htmlFilePath cfg)).Nodup →
    (extractJsLoop safeBase htmlFilePath cfg false ts count w i scripts).extractedJsFiles
      = (matchedFrom i scripts).map (fun p =>
          ⟨jsOutPath (jsComputedName safeBase count p.1) htmlFilePath cfg,
            strTrim p.2.body⟩) := by
  induction scripts with
  | nil =>
    intro w i _ _
    simp [extractJsLoop, matchedFrom, List.enumFrom]
  | cons sc rest ih =>
    intro w i habs hnd
    by_cases h : jsMatch sc
    · rw [matchedFrom_cons, if_pos h] at habs hnd ⊢
      rw [List.map_cons] at hnd
      have hconf : pathExistsW w
          (jsOutPath (jsComputedName safeBase count i) htmlFilePath cfg) = false :=
        habs (i, sc) (List.mem_cons_self _ _)
      have hstep := processOneScript_noconflict w sc i count safeBase htmlFilePath cfg ts hconf
      show (extractJsLoop safeBase htmlFilePath cfg false ts count w i (sc :: rest)).extractedJsFiles = _
      simp only [extractJsLoop, h, if_pos]
      rw [hstep]
      have hrest := ih (fsWriteW w (jsOutPath (jsComputedName safeBase count i) htmlFilePath cfg)
          (FileData.text (strTrim sc.body))) (i + 1) ?_ (List.Nodup.of_cons hnd)
      · simp only [List.map_cons]
        rw [← hrest]
      · intro p hp
        rw [pathExistsW_fsWriteW]
        have hne : jsOutPath (jsComputedName safeBase count p.1) htmlFilePath cfg ≠
            jsOutPath (jsComputedName safeBase count i) htmlFilePath cfg := by
          have hmem : jsOutPath (jsComputedName safeBase count p.1) htmlFilePath cfg ∈
              (matchedFrom (i + 1) rest).map
                (fun p => jsOutPath (jsComputedName safeBase count p.1) htmlFilePath cfg) :=
            List.mem_map.mpr ⟨p, hp, rfl⟩
          intro hcc
          rw [List.nodup_cons] at hnd
          exact hnd.1 (by rw [← hcc]; exact hmem)
        rw [if_neg hne]
        exact habs p (List.mem_cons_of_mem _ hp)
    · rw [matchedFrom_cons, if_neg h] at habs hnd ⊢
      show (extractJsLoop safeBase htmlFilePath cfg false ts count w i (sc :: rest)).extractedJsFiles = _
      simp only [extractJsLoop, h, Bool.false_eq_true, if_false]
      exact ih w (i + 1) habs hnd

/-- C7, confirmed: in a real run with no pre-existing files at the computed
output paths, each extracted file record's name carries the positional
suffix `_s(origIdx+1)` derived from the script's original index among all
`<script>` tags (external `src` tags included in the numbering) when two or
more scripts matched, and no suffix when exactly one matched. -/
theorem claim_C7 (w : World) (doc : HtmlDoc) (htmlFilePath htmlFileBaseName : String)
    (cfg : Config) (ts : Nat)
    (habs : ∀ p ∈ matchedScripts doc.scripts,
      pathExistsW w (jsOutPath (jsComputedName
        (generateSafeBaseName htmlFileBaseName "JS" cfg)
        ((doc.scripts.filter jsMatch).length) p.1) htmlFilePath cfg) = false)
    (hnd : ((matchedScripts doc.scripts).map
      (fun p => jsOutPath (jsComputedName
        (generateSafeBaseName htmlFileBaseName "JS" cfg)
        ((doc.scripts.filter jsMatch).length) p.1) htmlFilePath cfg)).Nodup) :
    (extractJsFromHtml w doc htmlFilePath htmlFileBaseName cfg false ts).2.extractedJsFiles
      = (matchedScripts doc.scripts).map (fun p =>
          ⟨jsOutPath (jsComputedName (generateSafeBaseName htmlFileBaseName "JS" cfg)
            ((doc.scripts.filter jsMatch).length) p.1) htmlFilePath cfg,
            strTrim p.2.body⟩) := by
  unfold extractJsFromHtml
  rw [matchedScripts_eq] at habs hnd ⊢
  exact extractJsLoop_names (generateSafeBaseName htmlFileBaseName "JS" cfg) htmlFilePath cfg ts
    ((doc.scripts.filter jsMatch).length) doc.scripts w 0 habs hnd

/-- The spec scenario: three inline scripts with one external script
interleaved at the second position. -/
def scriptSuffixDoc : HtmlDoc :=
  { styleTags := [], elems := [],
    scripts := [⟨none, "console.log(1)"⟩, ⟨some "ext.js", "ignored"⟩,
                ⟨none, "alert(2)"⟩, ⟨none, "x()"⟩],
    headLinks := [], hasHead := true }

/-- C7 witness: suffixes `_s1`, `_s3`, `_s4` reflect the original tag
indices, skipping the external script's position. -/
theorem claim_C7_witness :
    (extractJsFromHtml ⟨[], []⟩ scriptSuffixDoc "/r/p.html" "p"
        (mkConfig 100) false 7).2.extractedJsFiles
      = [⟨"/r/p_s1.js", "console.log(1)"⟩, ⟨"/r/p_s3.js", "alert(2)"⟩,
         ⟨"/r/p_s4.js", "x()"⟩] := by
  rw [claim_C7 ⟨[], []⟩ scriptSuffixDoc "/r/p.html" "p" (mkConfig 100) 7
    (by decide) (by decide)]
  decide

/-! ## Script collision policy (claim C1) -/

/-- C1, counterexample: the output path `/r/a.js` already holds exactly the
script's content (`"x()"`, byte-for-byte identical).  The claim says the
extractor should treat the file as already satisfied — no rewrite, original
name kept for `src`.  The code never compares contents: it mints the
timestamp-uniquified name, writes the script there, and uses that name for
`src`. -/
theorem claim_C1_counterexample :
    ((extractJsFromHtml ⟨[("/r/a.js", FileData.text "x()")], []⟩
        ⟨[], [], [⟨none, "x()"⟩], [], true⟩ "/r/a.html" "a"
        (mkConfig 100) false 7).2.world.writes
      = [("/r/a-conflict-7.js", FileData.text "x()")]) ∧
    ((extractJsFromHtml ⟨[("/r/a.js", FileData.text "x()")], []⟩
        ⟨[], [], [⟨none, "x()"⟩], [], true⟩ "/r/a.html" "a"
        (mkConfig 100) false 7).1.scripts
      = [⟨some "a-conflict-7.js", ""⟩]) ∧
    "a-conflict-7.js" ≠ "a.js" := by
  refine ⟨by decide, by decide, by decide⟩

/-- C1, amended: for a document with exactly one matched inline script, at
write time the extractor checks only whether a file exists at the computed
output path.  If one exists — whether its content is byte-for-byte
identical to the new content or different — it mints the
timestamp-uniquified `-conflict-` name, writes the script there, and uses
that name for the `src` attribute; only when no file exists at the
computed path does it write there and keep the original name for `src`. -/
theorem claim_C1_amended (w : World) (sc : Script) (doc : HtmlDoc)
    (htmlFilePath htmlFileBaseName : String) (cfg : Config) (ts : Nat)
    (hdoc : doc.scripts = [sc]) (hm : jsMatch sc = true) :
    (pathExistsW w (jsOutPath (jsComputedName
        (generateSafeBaseName htmlFileBaseName "JS" cfg) 1 0) htmlFilePath cfg) = true →
      extractJsFromHtml w doc htmlFilePath htmlFileBaseName cfg false ts =
        ({ doc with scripts := [{ sc with body := "", src := some (jsSrcAttrFor (jsConflictNameOf (generateSafeBaseName htmlFileBaseName "JS" cfg) 1 0 ts) htmlFilePath cfg) }] },
         ⟨[{ sc with body := "", src := some (jsSrcAttrFor (jsConflictNameOf (generateSafeBaseName htmlFileBaseName "JS" cfg) 1 0 ts) htmlFilePath cfg) }],
          [⟨jsOutPath (jsConflictNameOf (generateSafeBaseName htmlFileBaseName "JS" cfg) 1 0 ts) htmlFilePath cfg, strTrim sc.body⟩],
          true,
          fsWriteW w (jsOutPath (jsConflictNameOf (generateSafeBaseName htmlFileBaseName "JS" cfg) 1 0 ts) htmlFilePath cfg)
            (FileData.text (strTrim sc.body))⟩)) ∧
    (pathExistsW w (jsOutPath (jsComputedName
        (generateSafeBaseName htmlFileBaseName "JS" cfg) 1 0) htmlFilePath cfg) = false →
      extractJsFromHtml w doc htmlFilePath htmlFileBaseName cfg false ts =
        ({ doc with scripts := [{ sc with body := "", src := some (jsSrcAttrFor (jsComputedName (generateSafeBaseName htmlFileBaseName "JS" cfg) 1 0) htmlFilePath cfg) }] },
         ⟨[{ sc with body := "", src := some (jsSrcAttrFor (jsComputedName (generateSafeBaseName htmlFileBaseName "JS" cfg) 1 0) htmlFilePath cfg) }],
          [⟨jsOutPath (jsComputedName (generateSafeBaseName htmlFileBaseName "JS" cfg) 1 0) htmlFilePath cfg, strTrim sc.body⟩],
          true,
          fsWriteW w (jsOutPath (jsComputedName (generateSafeBaseName htmlFileBaseName "JS" cfg) 1 0) htmlFilePath cfg)
            (FileData.text (strTrim sc.body))⟩)) := by
  have hcount : (doc.scripts.filter jsMatch).length = 1 := by
    rw [hdoc]
    simp [hm]
  constructor
  · intro hex
    unfold extractJsFromHtml
    rw [hcount, hdoc]
    have hstep := processOneScript_conflict w sc 0 1
      (generateSafeBaseName htmlFileBaseName "JS" cfg) htmlFilePath cfg ts hex
    simp only [extractJsLoop, hm, if_pos]
    rw [hstep]
  · intro hex
    unfold extractJsFromHtml
    rw [hcount, hdoc]
    have hstep := processOneScript_noconflict w sc 0 1
      (generateSafeBaseName htmlFileBaseName "JS" cfg) htmlFilePath cfg ts hex
    simp only [extractJsLoop, hm, if_pos]
    rw [hstep]

/-- C1 witness: the conflict branch of the amended claim at a concrete
input (existing file with different content). -/
theorem claim_C1_amended_witness :
    (extractJsFromHtml ⟨[("/r/a.js", FileData.text "old")], []⟩
        ⟨[], [], [⟨none, "x()"⟩], [], true⟩ "/r/a.html" "a"
        (mkConfig 100) false 7).1.scripts
      = [⟨some "a-conflict-7.js", ""⟩] := by
  have h := (claim_C1_amended ⟨[("/r/a.js", FileData.text "old")], []⟩ ⟨none, "x()"⟩
    ⟨[], [], [⟨none, "x()"⟩], [], true⟩ "/r/a.html" "a" (mkConfig 100) 7
    rfl (by decide)).1 (by decide)
  rw [h]
  decide

/-! ## CSS file merge policy (claim C6) -/

/-- Appending a suffix makes `strEndsWith` true. -/
theorem strEndsWith_append (a b : String) : strEndsWith (a ++ b) b = true := by
  have h : (a ++ b).data = a.data ++ b.data := rfl
  unfold strEndsWith
  rw [h]
  apply decide_eq_true
  have hl : (a.data ++ b.data).length = a.data.length + b.data.length := List.length_append _ _
  rw [hl, Nat.add_sub_cancel]
  exact List.drop_left _ _

/-- C6, counterexample, in two parts.  Legacy variant: the target file
holds `"body{}\nY"`, which contains the new content `"Y"` — the claim says
no write occurs — yet because the Tailwind preamble is absent the function
writes the file, replacing the existing rules with preamble plus new
content (the old `body{}` rule is lost).  Main engine: appending `"Y"`
to a file holding `"X"` writes `X`, the separator comment, and `Y` —
no boilerplate preamble is ever prepended. -/
theorem claim_C6_counterexample :
    (strIncludes "body\x7b\x7d\nY" "Y" = true ∧
     (saveCssFileLegacy ⟨[("/r/styles/a.css", FileData.text "body\x7b\x7d\nY")], []⟩
        "Y" "a" "/r/pages/a.html" "2024-01-01T00:00:00.000Z" "/r/styles").world.writes
      = [("/r/styles/a.css", FileData.text
          "@tailwind base;\n@tailwind components;\n@tailwind utilities;\n\nY\n")]) ∧
    (saveCssFile ⟨[("/r/styles/a.css", FileData.text "X")], []⟩
        "Y" "a" "/r/pages/a.html" (mkConfig 100) false).world.writes
      = [("/r/styles/a.css", FileData.text
          ("X" ++ cssSeparator ++ "Y"))] := by
  refine ⟨⟨by decide, by decide⟩, by decide⟩

/-- C6, amended, for the main engine's `saveCssFile`: when the target file
exists with text content that already includes the new content, no write
occurs; when it exists with non-blank content not including the new
content, the new content is appended after the separator comment; when no
file exists, the new content alone is written.  No boilerplate preamble is
ever prepended — the Tailwind-directive preamble behaviour exists only in
the legacy variant, which skips the write only when the existing file
already has the directives, and otherwise replaces the file with preamble
plus new content. -/
theorem claim_C6_amended (w : World) (cssContent cssFileBaseName htmlFilePath : String)
    (cfg : Config) (hc : strTrim cssContent ≠ "") :
    (∀ X, fsRead w.fs (cssTargetPath cssFileBaseName htmlFilePath cfg)
        = some (FileData.text X) → strIncludes X cssContent = true →
      saveCssFile w cssContent cssFileBaseName htmlFilePath cfg false =
        ⟨some (cssTargetPath cssFileBaseName htmlFilePath cfg), w⟩) ∧
    (∀ X, fsRead w.fs (cssTargetPath cssFileBaseName htmlFilePath cfg)
        = some (FileData.text X) → strIncludes X cssContent = false → strTrim X ≠ "" →
      saveCssFile w cssContent cssFileBaseName htmlFilePath cfg false =
        ⟨some (cssTargetPath cssFileBaseName htmlFilePath cfg),
         fsWriteW w (cssTargetPath cssFileBaseName htmlFilePath cfg)
           (FileData.text (X ++ cssSeparator ++ cssContent))⟩) ∧
    (fsRead w.fs (cssTargetPath cssFileBaseName htmlFilePath cfg) = none →
      saveCssFile w cssContent cssFileBaseName htmlFilePath cfg false =
        ⟨some (cssTargetPath cssFileBaseName htmlFilePath cfg),
         fsWriteW w (cssTargetPath cssFileBaseName htmlFilePath cfg)
           (FileData.text cssContent)⟩) := by
  refine ⟨?_, ?_, ?_⟩
  · intro X hre hinc
    unfold saveCssFile
    rw [if_neg hc]
    simp only [Bool.false_eq_true, if_false, hre]
    show (if strIncludes X cssContent = true then _ else _) = _
    rw [if_pos hinc]
  · intro X hre hninc hnb
    unfold saveCssFile
    rw [if_neg hc]
    simp only [Bool.false_eq_true, if_false, hre]
    show (if strIncludes X cssContent = true then _ else _) = _
    rw [if_neg (by simp [hninc])]
    show SaveCssResult.mk _ (fsWriteW w _ (FileData.text
      ((if strEndsWith (if strTrim X ≠ "" then X ++ cssSeparator else X) cssSeparator = true
          then (if strTrim X ≠ "" then X ++ cssSeparator else X)
          else (if strTrim X ≠ "" then X ++ cssSeparator else X) ++
            (if (if strTrim X ≠ "" then X ++ cssSeparator else X) ≠ "" then "\n" else "")) ++
        cssContent))) = _
    rw [if_pos hnb]
    rw [if_pos (strEndsWith_append X cssSeparator)]
  · intro hre
    unfold saveCssFile
    rw [if_neg hc]
    simp only [Bool.false_eq_true, if_false, hre]

/-- C6 witness: the amended no-write and append cases at concrete inputs. -/
theorem claim_C6_amended_witness :
    (saveCssFile ⟨[("/r/styles/a.css", FileData.text "A\nY\nB")], []⟩
        "Y" "a" "/r/pages/a.html" (mkConfig 100) false =
      ⟨some "/r/styles/a.css", ⟨[("/r/styles/a.css", FileData.text "A\nY\nB")], []⟩⟩) ∧
    (saveCssFile ⟨[], []⟩ "Y" "a" "/r/pages/a.html" (mkConfig 100) false =
      ⟨some "/r/styles/a.css",
       fsWriteW ⟨[], []⟩ "/r/styles/a.css" (FileData.text "Y")⟩) := by
  constructor
  · have h := (claim_C6_amended ⟨[("/r/styles/a.css", FileData.text "A\nY\nB")], []⟩
      "Y" "a" "/r/pages/a.html" (mkConfig 100) (by decide)).1 "A\nY\nB" (by decide) (by decide)
    rw [h]
    decide
  · have h := (claim_C6_amended ⟨[], []⟩
      "Y" "a" "/r/pages/a.html" (mkConfig 100) (by decide)).2.2 (by decide)
    rw [h]
    decide

/-! ## Batch error handling (claim C2) -/

/-- A document whose processing changes it (one styled element). -/
def goodDoc : HtmlDoc := ⟨[], [⟨some "color:red", []⟩], [], [], true⟩

/-- C2, counterexample: the batch is given a missing file and then a good
file.  The claim says the read failure is fatal for the batch — propagated,
whole batch fails, no partial success.  Instead `processHtmlFile` catches
the failure and returns `false`, and the driver continues: both files are
scanned, the good file is processed and modified, and the run completes
with writes performed (partial success). -/
theorem claim_C2_counterexample :
    (processHtmlFile ⟨[("/r/good.html", FileData.html goodDoc)], []⟩
        "/r/missing.html" (mkConfig 100) false 7
      = (false, ⟨[("/r/good.html", FileData.html goodDoc)], []⟩)) ∧
    ((runRefactorProcess ⟨[("/r/good.html", FileData.html goodDoc)], []⟩
        ["/r/missing.html", "/r/good.html"] (mkConfig 100) false 7).1 = 2 ∧
     (runRefactorProcess ⟨[("/r/good.html", FileData.html goodDoc)], []⟩
        ["/r/missing.html", "/r/good.html"] (mkConfig 100) false 7).2.1 = 1 ∧
     (runRefactorProcess ⟨[("/r/good.html", FileData.html goodDoc)], []⟩
        ["/r/missing.html", "/r/good.html"] (mkConfig 100) false 7).2.2.writes ≠ []) := by
  exact ⟨by decide, by decide, by decide, by decide⟩

/-- C2, amended: a source read failure is caught inside `processHtmlFile`,
which logs it and returns `false` with the world untouched; the batch
driver then simply continues with the remaining documents, counting the
failed file among the scanned ones — partial success, not a batch
failure. -/
theorem claim_C2_amended (w : World) (p : String) (rest : List String)
    (cfg : Config) (isDryRun : Bool) (ts : Nat)
    (h : fsRead w.fs p = none) :
    processHtmlFile w p cfg isDryRun ts = (false, w) ∧
    runRefactorProcess w (p :: rest) cfg isDryRun ts =
      ((runRefactorProcess w rest cfg isDryRun ts).1 + 1,
       (runRefactorProcess w rest cfg isDryRun ts).2.1,
       (runRefactorProcess w rest cfg isDryRun ts).2.2) := by
  have h1 : processHtmlFile w p cfg isDryRun ts = (false, w) := by
    unfold processHtmlFile
    rw [h]
  refine ⟨h1, ?_⟩
  unfold runRefactorProcess
  simp only [runRefactorLoop]
  rw [h1]
  simp

/-- C2 witness: the amended behavior at a concrete world. -/
theorem claim_C2_amended_witness :
    processHtmlFile ⟨[], []⟩ "/r/missing.html" (mkConfig 100) false 7 = (false, ⟨[], []⟩) :=
  (claim_C2_amended ⟨[], []⟩ "/r/missing.html" [] (mkConfig 100) false 7 (by decide)).1

/-! ## Dry-run frame property (claim C9) -/

/-- A dry-run CSS save touches nothing. -/
theorem saveCssFile_dry_world (w : World) (c b p : String) (cfg : Config) :
    (saveCssFile w c b p cfg true).world = w := by
  unfold saveCssFile
  by_cases h : strTrim c = ""
  · rw [if_pos h]
  · rw [if_neg h]
    rfl

/-- A dry-run script-extraction loop touches nothing. -/
theorem extractJsLoop_dry_world (p : String) (cfg : Config) (ts : Nat) :
    ∀ (scripts : List Script) (w : World) (i : Nat) (sb : String) (cnt : Nat),
    (extractJsLoop sb p cfg true ts cnt w i scripts).world = w := by
  intro scripts
  induction scripts with
  | nil => intro w i sb cnt; rfl
  | cons sc rest ih =>
    intro w i sb cnt
    by_cases h : jsMatch sc = true
    · simp only [extractJsLoop, h, if_pos]
      rw [processOneScript_dry]
      exact ih w (i + 1) sb cnt
    · have h' : jsMatch sc = false := by simpa using h
      simp only [extractJsLoop, h', Bool.false_eq_true, if_false]
      exact ih w (i + 1) sb cnt

/-- A dry-run script extraction touches nothing. -/
theorem extractJsFromHtml_dry_world (w : World) (doc : HtmlDoc) (p b : String)
    (cfg : Config) (ts : Nat) :
    (extractJsFromHtml w doc p b cfg true ts).2.world = w := by
  unfold extractJsFromHtml
  exact extractJsLoop_dry_world p cfg ts doc.scripts w 0 _ _

/-- C9, confirmed: with dry-run enabled, processing a document leaves the
world — the file map and the write log — exactly as it was: no HTML, CSS
or JS file and no backup is created or modified, while the run still walks
every decision branch of the extractors to produce its report. -/
theorem claim_C9 (w : World) (p : String) (cfg : Config) (ts : Nat) :
    (processHtmlFile w p cfg true ts).2 = w := by
  unfold processHtmlFile
  cases hr : fsRead w.fs p with
  | none => rfl
  | some fd =>
    dsimp only
    by_cases hcss : ((extractCssFromHtml (parseHtmlFile fd)
        (pathBasenameExt p ".html")).cssModified ||
        (extractCssFromHtml (parseHtmlFile fd) (pathBasenameExt p ".html")).cssContent ≠ "") = true
    · rw [if_pos hcss]
      cases hs : (saveCssFile w (extractCssFromHtml (parseHtmlFile fd)
          (pathBasenameExt p ".html")).cssContent
          (generateCssFileBaseName p cfg) p cfg true).savedPath with
      | none =>
        dsimp only
        rw [extractJsFromHtml_dry_world]
        rw [saveCssFile_dry_world]
        split
        · rfl
        · rfl
      | some q =>
        dsimp only
        rw [extractJsFromHtml_dry_world]
        rw [saveCssFile_dry_world]
        split
        · rfl
        · rfl
    · rw [if_neg hcss]
      dsimp only
      rw [extractJsFromHtml_dry_world]
      split
      · rfl
      · rfl

/-! ## Idempotence (claim C4), part 1: clean documents -/

/-- An element the style-attribute pass would skip. -/
def styleBlank (e : StyledElem) : Prop :=
  match e.style with
  | none => True
  | some s => strTrim s = ""

/-- A document on which a real run is a no-op: blank style tags, blank or
absent style attributes, no matched scripts. -/
def cleanDoc (d : HtmlDoc) : Prop :=
  (∀ t ∈ d.styleTags, strTrim t = "") ∧
  (∀ e ∈ d.elems, styleBlank e) ∧
  (∀ sc ∈ d.scripts, jsMatch sc = false)

/-- File values a second run is inert on: opaque text, or a clean parsed
document. -/
def inertValue (o : Option FileData) : Prop :=
  (∃ s, o = some (FileData.text s)) ∨
  (∃ d, o = some (FileData.html d) ∧ cleanDoc d)

/-- The tag pass over all-blank style tags extracts nothing. -/
theorem styleTagPass_blank (base : String) :
    ∀ (tags : List String) (i : Nat), (∀ t ∈ tags, strTrim t = "") →
    styleTagPass base i tags = ("", tags, false) := by
  intro tags
  induction tags with
  | nil => intro i _; rfl
  | cons t ts ih =>
    intro i h
    have ht := h t (List.mem_cons_self _ _)
    have hts := ih (i + 1) (fun x hx => h x (List.mem_cons_of_mem _ hx))
    show styleTagPass base i (t :: ts) = _
    simp only [styleTagPass, hts, ht]
    simp

/-- The attribute pass over blank elements changes nothing. -/
theorem styleAttrPass_blank (base : String) :
    ∀ (elems : List StyledElem) (st : CssAttrState), (∀ e ∈ elems, styleBlank e) →
    styleAttrPass base st elems = (st, elems) := by
  intro elems
  induction elems with
  | nil => intro st _; rfl
  | cons e es ih =>
    intro st h
    have he := h e (List.mem_cons_self _ _)
    have hstep : processStyleAttrElem base st e = (st, e) := by
      unfold styleBlank at he
      cases hs : e.style with
      | none => exact processStyleAttrElem_none base st e hs
      | some raw =>
        rw [hs] at he
        exact processStyleAttrElem_blank base st e raw hs he
    show styleAttrPass base st (e :: es) = _
    simp only [styleAttrPass, hstep]
    rw [ih st (fun x hx => h x (List.mem_cons_of_mem _ hx))]

/-- CSS extraction is the identity (no content, no modification) on a
document with blank tags and blank attributes. -/
theorem extractCss_clean (d : HtmlDoc) (base : String)
    (h1 : ∀ t ∈ d.styleTags, strTrim t = "") (h2 : ∀ e ∈ d.elems, styleBlank e) :
    extractCssFromHtml d base = ⟨d, "", false⟩ := by
  unfold extractCssFromHtml
  rw [styleTagPass_blank base d.styleTags 0 h1]
  dsimp only
  rw [styleAttrPass_blank base d.elems ⟨"", [], false⟩ h2]
  rfl

/-- The tags kept by the tag pass are exactly the blank ones. -/
theorem styleTagPass_kept_blank (base : String) :
    ∀ (tags : List String) (i : Nat) (t : String),
    t ∈ (styleTagPass base i tags).2.1 → strTrim t = "" := by
  intro tags
  induction tags with
  | nil => intro i t h; cases h
  | cons t0 ts ih =>
    intro i t h
    simp only [styleTagPass] at h
    split at h
    · exact ih (i + 1) t h
    · next hb =>
      have hb0 : strTrim t0 = "" := by simpa using hb
      rcases List.mem_cons.mp h with rfl | h2
      · exact hb0
      · exact ih (i + 1) t h2

/-- `addClass` never touches the `style` attribute. -/
theorem addClass_style (c : String) (e : StyledElem) : (addClass c e).style = e.style := by
  unfold addClass
  split
  · rfl
  · rfl

/-- The transformed element is always blank afterwards. -/
theorem styleElemTransform_blank (e : StyledElem) : styleBlank (styleElemTransform e) := by
  cases hs : e.style with
  | none =>
    have ht : styleElemTransform e = e := by
      unfold styleElemTransform
      rw [hs]
    rw [ht]
    simp [styleBlank, hs]
  | some raw =>
    by_cases hb : strTrim raw = ""
    · have ht : styleElemTransform e = e := by
        unfold styleElemTransform
        rw [hs]
        simp [hb]
      rw [ht]
      simp [styleBlank, hs, hb]
    · rw [styleElemTransform_active e raw hs hb]
      have h2 : (addClass (generateClassFromStyle (normalizeStyleString raw))
          { e with style := none }).style = none := by
        rw [addClass_style]
      simp [styleBlank, h2]

/-! ## Idempotence (claim C4), part 2: no-modification and script lemmas -/

/-- An unmodified tag pass saw only blank tags. -/
theorem styleTagPass_not_modified (base : String) :
    ∀ (tags : List String) (i : Nat), (styleTagPass base i tags).2.2 = false →
    ∀ t ∈ tags, strTrim t = "" := by
  intro tags
  induction tags with
  | nil => intro i _ t ht; cases ht
  | cons t0 ts ih =>
    intro i h t ht
    simp only [styleTagPass] at h
    split at h
    · exact absurd h (by simp)
    · next hb =>
      have hb0 : strTrim t0 = "" := by simpa using hb
      rcases List.mem_cons.mp ht with rfl | h2
      · exact hb0
      · exact ih (i + 1) h t h2

/-- The attribute pass never resets the modification flag. -/
theorem styleAttrPass_monotone (base : String) :
    ∀ (elems : List StyledElem) (st : CssAttrState), st.modified = true →
    (styleAttrPass base st elems).1.modified = true := by
  intro elems
  induction elems with
  | nil => intro st h; exact h
  | cons e es ih =>
    intro st h
    have hstep : (processStyleAttrElem base st e).1.modified = true := by
      cases hs : e.style with
      | none => rw [processStyleAttrElem_none base st e hs]; exact h
      | some raw =>
        by_cases hb : strTrim raw = ""
        · rw [processStyleAttrElem_blank base st e raw hs hb]; exact h
        · cases hl : lookupMap st.styleMap (normalizeStyleString raw) with
          | some cls => rw [processStyleAttrElem_hit base st e raw cls hs hb hl]
          | none => rw [processStyleAttrElem_miss base st e raw hs hb hl]
    show (styleAttrPass base st (e :: es)).1.modified = true
    simp only [styleAttrPass]
    exact ih _ hstep

/-- An unmodified attribute pass saw only blank elements. -/
theorem styleAttrPass_not_modified (base : String) :
    ∀ (elems : List StyledElem) (st : CssAttrState),
    (styleAttrPass base st elems).1.modified = false →
    ∀ e ∈ elems, styleBlank e := by
  intro elems
  induction elems with
  | nil => intro st _ e he; cases he
  | cons e0 es ih =>
    intro st h e he
    have htail : (styleAttrPass base (processStyleAttrElem base st e0).1 es).1.modified = false := by
      simpa only [styleAttrPass] using h
    have hstep : (processStyleAttrElem base st e0).1.modified = false := by
      by_cases hm : (processStyleAttrElem base st e0).1.modified = true
      · rw [styleAttrPass_monotone base es _ hm] at htail
        cases htail
      · simpa using hm
    have hblank0 : styleBlank e0 := by
      cases hs : e0.style with
      | none => simp [styleBlank, hs]
      | some raw =>
        by_cases hb : strTrim raw = ""
        · simp [styleBlank, hs, hb]
        · exfalso
          cases hl : lookupMap st.styleMap (normalizeStyleString raw) with
          | some cls =>
            rw [processStyleAttrElem_hit base st e0 raw cls hs hb hl] at hstep
            cases hstep
          | none =>
            rw [processStyleAttrElem_miss base st e0 raw hs hb hl] at hstep
            cases hstep
    rcases List.mem_cons.mp he with rfl | h2
    · exact hblank0
    · exact ih _ htail e h2

/-- An unmodified CSS extraction saw a style-clean document. -/
theorem extractCss_not_modified (doc : HtmlDoc) (base : String)
    (h : (extractCssFromHtml doc base).cssModified = false) :
    (∀ t ∈ doc.styleTags, strTrim t = "") ∧ (∀ e ∈ doc.elems, styleBlank e) := by
  unfold extractCssFromHtml at h
  dsimp only at h
  constructor
  · apply styleTagPass_not_modified base doc.styleTags 0
    by_cases hm : (styleTagPass base 0 doc.styleTags).2.2 = true
    · have := styleAttrPass_monotone base doc.elems
        ⟨(styleTagPass base 0 doc.styleTags).1, [], (styleTagPass base 0 doc.styleTags).2.2⟩
        hm
      rw [this] at h
      cases h
    · simpa using hm
  · exact styleAttrPass_not_modified base doc.elems _ h

/-- The real-run per-script body always clears the inline content. -/
theorem processOneScript_body (w : World) (sc : Script) (i cnt : Nat)
    (sb p : String) (cfg : Config) (ts : Nat) :
    (processOneScript w sc i cnt sb p cfg false ts).1.body = "" := rfl

/-- A script with an empty body never matches. -/
theorem jsMatch_body_empty (sc : Script) (h : sc.body = "") : jsMatch sc = false := by
  unfold jsMatch
  rw [h]
  simp [strTrim]

/-- Every script coming out of a real-run extraction loop is unmatched. -/
theorem extractJsLoop_scripts_unmatched (sb p : String) (cfg : Config) (ts cnt : Nat) :
    ∀ (scripts : List Script) (w : World) (i : Nat),
    ∀ sc ∈ (extractJsLoop sb p cfg false ts cnt w i scripts).scripts, jsMatch sc = false := by
  intro scripts
  induction scripts with
  | nil => intro w i sc h; cases h
  | cons sc0 rest ih =>
    intro w i sc h
    by_cases hm : jsMatch sc0 = true
    · simp only [extractJsLoop, hm, if_pos] at h
      rcases List.mem_cons.mp h with rfl | h2
      · exact jsMatch_body_empty _ (processOneScript_body w sc0 i cnt sb p cfg ts)
      · exact ih _ (i + 1) sc h2
    · have hm' : jsMatch sc0 = false := by simpa using hm
      simp only [extractJsLoop, hm', Bool.false_eq_true, if_false] at h
      rcases List.mem_cons.mp h with rfl | h2
      · exact hm'
      · exact ih w (i + 1) sc h2

/-- An unmodified extraction loop saw only unmatched scripts. -/
theorem extractJsLoop_not_modified (sb p : String) (cfg : Config) (ts cnt : Nat)
    (isDryRun : Bool) :
    ∀ (scripts : List Script) (w : World) (i : Nat),
    (extractJsLoop sb p cfg isDryRun ts cnt w i scripts).jsModifiedInHtml = false →
    ∀ sc ∈ scripts, jsMatch sc = false := by
  intro scripts
  induction scripts with
  | nil => intro w i _ sc h; cases h
  | cons sc0 rest ih =>
    intro w i h sc hm
    by_cases h0 : jsMatch sc0 = true
    · simp only [extractJsLoop, h0, if_pos] at h
      cases h
    · have h0' : jsMatch sc0 = false := by simpa using h0
      simp only [extractJsLoop, h0', Bool.false_eq_true, if_false] at h
      rcases List.mem_cons.mp hm with rfl | h2
      · exact h0'
      · exact ih w (i + 1) h sc h2

/-- A loop over unmatched scripts is the identity. -/
theorem extractJsLoop_unmatched_id (sb p : String) (cfg : Config) (ts cnt : Nat)
    (isDryRun : Bool) :
    ∀ (scripts : List Script) (w : World) (i : Nat),
    (∀ sc ∈ scripts, jsMatch sc = false) →
    extractJsLoop sb p cfg isDryRun ts cnt w i scripts = ⟨scripts, [], false, w⟩ := by
  intro scripts
  induction scripts with
  | nil => intro w i _; rfl
  | cons sc0 rest ih =>
    intro w i h
    have h0 := h sc0 (List.mem_cons_self _ _)
    show extractJsLoop sb p cfg isDryRun ts cnt w i (sc0 :: rest) = _
    simp only [extractJsLoop, h0, Bool.false_eq_true, if_false]
    rw [ih w (i + 1) (fun x hx => h x (List.mem_cons_of_mem _ hx))]

/-! ## Idempotence (claim C4), part 3: write tracking -/

/-- `w'` extends `w` by text-file writes only. -/
def TextExtends (w w' : World) : Prop :=
  ∀ q, fsRead w'.fs q = fsRead w.fs q ∨ ∃ s, fsRead w'.fs q = some (FileData.text s)

theorem textExtends_refl (w : World) : TextExtends w w := fun _ => Or.inl rfl

theorem TextExtends.trans {w1 w2 w3 : World} (h1 : TextExtends w1 w2)
    (h2 : TextExtends w2 w3) : TextExtends w1 w3 := by
  intro q
  rcases h2 q with h | h
  · rw [h]; exact h1 q
  · exact Or.inr h

theorem TextExtends.write (w : World) (p s : String) :
    TextExtends w (fsWriteW w p (FileData.text s)) := by
  intro q
  by_cases h : q = p
  · subst h
    exact Or.inr ⟨s, fsRead_fsWriteW_self w q (FileData.text s)⟩
  · exact Or.inl (fsRead_fsWriteW_other w p q _ h)

/-- `saveCssFile` performs at most one text write. -/
theorem saveCssFile_textExtends (w : World) (c b p : String) (cfg : Config)
    (isDryRun : Bool) : TextExtends w (saveCssFile w c b p cfg isDryRun).world := by
  unfold saveCssFile
  by_cases h1 : strTrim c = ""
  · rw [if_pos h1]; exact textExtends_refl w
  · rw [if_neg h1]
    dsimp only
    by_cases hd : isDryRun = true
    · rw [if_pos hd]; exact textExtends_refl w
    · rw [if_neg hd]
      cases hr : fsRead w.fs (cssTargetPath b p cfg) with
      | some fd =>
        dsimp only
        split
        · exact textExtends_refl w
        · exact TextExtends.write w _ _
      | none => exact TextExtends.write w _ _

/-- The extraction loop performs text writes only. -/
theorem extractJsLoop_textExtends (sb p : String) (cfg : Config) (ts cnt : Nat)
    (isDryRun : Bool) :
    ∀ (scripts : List Script) (w : World) (i : Nat),
    TextExtends w (extractJsLoop sb p cfg isDryRun ts cnt w i scripts).world := by
  intro scripts
  induction scripts with
  | nil => intro w i; exact textExtends_refl w
  | cons sc0 rest ih =>
    intro w i
    by_cases hm : jsMatch sc0 = true
    · simp only [extractJsLoop, hm, if_pos]
      refine TextExtends.trans ?_ (ih _ (i + 1))
      by_cases hd : isDryRun = true
      · subst hd
        rw [processOneScript_dry]
        exact textExtends_refl w
      · have hd' : isDryRun = false := by simpa using hd
        subst hd'
        show TextExtends w (processOneScript w sc0 i cnt sb p cfg false ts).2.2
        unfold processOneScript
        dsimp only
        simp only [Bool.false_eq_true, if_false]
        exact TextExtends.write w _ _
    · have hm' : jsMatch sc0 = false := by simpa using hm
      simp only [extractJsLoop, hm', Bool.false_eq_true, if_false]
      exact ih w (i + 1)

/-- Every record of the real-run loop points at a path that, in the loop's
final world, holds the text written for it. -/
theorem extractJsLoop_sources_text (sb p : String) (cfg : Config) (ts cnt : Nat) :
    ∀ (scripts : List Script) (w : World) (i : Nat),
    ∀ rec ∈ (extractJsLoop sb p cfg false ts cnt w i scripts).extractedJsFiles,
    ∃ s, fsRead (extractJsLoop sb p cfg false ts cnt w i scripts).world.fs rec.sourcePath
      = some (FileData.text s) := by
  intro scripts
  induction scripts with
  | nil => intro w i rec h; cases h
  | cons sc0 rest ih =>
    intro w i rec h
    by_cases hm : jsMatch sc0 = true
    · simp only [extractJsLoop, hm, if_pos] at h ⊢
      rcases List.mem_cons.mp h with rfl | h2
      · have hw : fsRead (processOneScript w sc0 i cnt sb p cfg false ts).2.2.fs
            (processOneScript w sc0 i cnt sb p cfg false ts).2.1.sourcePath
            = some (FileData.text (strTrim sc0.body)) := by
          unfold processOneScript
          dsimp only
          simp only [Bool.false_eq_true, if_false]
          exact fsRead_fsWriteW_self _ _ _
        rcases extractJsLoop_textExtends sb p cfg ts cnt false rest
            (processOneScript w sc0 i cnt sb p cfg false ts).2.2 (i + 1)
            (processOneScript w sc0 i cnt sb p cfg false ts).2.1.sourcePath with hsame | htext
        · exact ⟨strTrim sc0.body, by rw [hsame]; exact hw⟩
        · exact htext
      · exact ih _ (i + 1) rec h2
    · have hm' : jsMatch sc0 = false := by simpa using hm
      simp only [extractJsLoop, hm', Bool.false_eq_true, if_false] at h ⊢
      exact ih w (i + 1) rec h

/-! ## Idempotence (claim C4), part 4: path-suffix facts -/

/-- The last character of a string with a known non-empty suffix. -/
theorem strEndsWith_getLastD (x t : String) (c : Char)
    (h : strEndsWith x t = true) (ht : t.data.getLastD 'Z' = c) (hne : t.data ≠ []) :
    x.data.getLastD 'Z' = c := by
  unfold strEndsWith at h
  have heq : x.data.drop (x.data.length - t.data.length) = t.data := of_decide_eq_true h
  have hx : x.data = x.data.take (x.data.length - t.data.length) ++ t.data := by
    conv_lhs => rw [← List.take_append_drop (x.data.length - t.data.length) x.data]
    rw [heq]
  rcases List.eq_nil_or_concat t.data with hnil | ⟨init, last, hconcat⟩
  · exact absurd hnil hne
  · rw [List.concat_eq_append] at hconcat
    rw [hconcat] at hx ht
    rw [hx, ← List.append_assoc, List.getLastD_concat]
    rw [List.getLastD_concat] at ht
    exact ht

/-- A `.js` path never equals a `.bak` path. -/
theorem js_ne_bak (x y : String) (hx : strEndsWith x ".js" = true)
    (hy : strEndsWith y ".bak" = true) : x ≠ y := by
  intro hcc
  have h1 : x.data.getLastD 'Z' = 's' := strEndsWith_getLastD x ".js" 's' hx (by decide) (by decide)
  have h2 : y.data.getLastD 'Z' = 'k' := strEndsWith_getLastD y ".bak" 'k' hy (by decide) (by decide)
  rw [hcc, h2] at h1
  cases h1

/-- Any computed JS output path ends in `.js`. -/
theorem jsOutPath_endsWith (X p : String) (cfg : Config) :
    strEndsWith (jsOutPath (X ++ ".js") p cfg) ".js" = true := by
  unfold jsOutPath pathJoin
  split
  · rw [← String.append_assoc]
    exact strEndsWith_append _ _
  · rw [← String.append_assoc]
    exact strEndsWith_append _ _

/-- The per-script body always returns a record whose path ends in `.js`. -/
theorem processOneScript_source_endsWith (w : World) (sc : Script) (i cnt : Nat)
    (sb p : String) (cfg : Config) (ts : Nat) :
    strEndsWith (processOneScript w sc i cnt sb p cfg false ts).2.1.sourcePath ".js" = true := by
  by_cases hc : pathExistsW w (jsOutPath (jsComputedName sb cnt i) p cfg) = true
  · rw [processOneScript_conflict w sc i cnt sb p cfg ts hc]
    unfold jsConflictNameOf
    exact jsOutPath_endsWith _ p cfg
  · rw [processOneScript_noconflict w sc i cnt sb p cfg ts (by simpa using hc)]
    unfold jsComputedName
    exact jsOutPath_endsWith _ p cfg

/-- Every record of the real-run loop has a `.js` path. -/
theorem extractJsLoop_sources_endsWith (sb p : String) (cfg : Config) (ts cnt : Nat) :
    ∀ (scripts : List Script) (w : World) (i : Nat),
    ∀ rec ∈ (extractJsLoop sb p cfg false ts cnt w i scripts).extractedJsFiles,
    strEndsWith rec.sourcePath ".js" = true := by
  intro scripts
  induction scripts with
  | nil => intro w i rec h; cases h
  | cons sc0 rest ih =>
    intro w i rec h
    by_cases hm : jsMatch sc0 = true
    · simp only [extractJsLoop, hm, if_pos] at h
      rcases List.mem_cons.mp h with rfl | h2
      · exact processOneScript_source_endsWith w sc0 i cnt sb p cfg ts
      · exact ih _ (i + 1) rec h2
    · have hm' : jsMatch sc0 = false := by simpa using hm
      simp only [extractJsLoop, hm', Bool.false_eq_true, if_false] at h
      exact ih w (i + 1) rec h

/-! ## Idempotence (claim C4), part 5: inert values and the dist mirror -/

/-- A write of an inert value preserves inertness everywhere. -/
theorem inertValue_after_write (w : World) (dest q : String) (fd : FileData)
    (hq : inertValue (fsRead w.fs q)) (hfd : inertValue (some fd)) :
    inertValue (fsRead (fsWriteW w dest fd).fs q) := by
  by_cases h : q = dest
  · subst h
    rw [fsRead_fsWriteW_self]
    exact hfd
  · rw [fsRead_fsWriteW_other w dest q fd h]
    exact hq

/-- The dist mirror loop copies only values read from tracked sources, so
inertness at the document's path survives it. -/
theorem distCopyJs_inert (cfg : Config) (p : String) :
    ∀ (todo : List JsFileRec) (w : World),
    inertValue (fsRead w.fs p) →
    (∀ rec ∈ todo, inertValue (fsRead w.fs rec.sourcePath)) →
    inertValue (fsRead (distCopyJs cfg false w todo).fs p) := by
  intro todo
  induction todo with
  | nil => intro w hp _; exact hp
  | cons f rest ih =>
    intro w hp hsrc
    show inertValue (fsRead (distCopyJs cfg false w (f :: rest)).fs p)
    simp only [distCopyJs, Bool.false_eq_true, if_false]
    cases hrd : fsRead w.fs f.sourcePath with
    | none =>
      exact ih w hp (fun rec h => hsrc rec (List.mem_cons_of_mem _ h))
    | some fd =>
      have hfd : inertValue (some fd) := by
        have := hsrc f (List.mem_cons_self _ _)
        rw [hrd] at this
        exact this
      apply ih
      · exact inertValue_after_write w _ p fd hp hfd
      · intro rec h
        exact inertValue_after_write w _ _ fd (hsrc rec (List.mem_cons_of_mem _ h)) hfd

/-- Appending a non-empty string always changes a string. -/
theorem strAppend_ne (q t : String) (h : t.data ≠ []) : q ++ t ≠ q := by
  intro hcc
  have hd : (q ++ t).data = q.data ++ t.data := rfl
  have : q.data ++ t.data = q.data := by rw [← hd, hcc]
  have hl := congrArg List.length this
  rw [List.length_append] at hl
  have : t.data.length = 0 := by omega
  exact h (List.eq_nil_of_length_eq_zero this)

/-- Helper: a source read failure makes `processHtmlFile` a no-op
returning `false`. -/
theorem processHtmlFile_read_none (w : World) (p : String) (cfg : Config)
    (isDryRun : Bool) (ts : Nat) (hr : fsRead w.fs p = none) :
    processHtmlFile w p cfg isDryRun ts = (false, w) := by
  unfold processHtmlFile
  rw [hr]

/-- A path holding opaque text parses to an empty document, and processing
it is a `false` no-op. -/
theorem processHtmlFile_text_noop (w : World) (p : String) (cfg : Config)
    (ts : Nat) (s : String) (hr : fsRead w.fs p = some (FileData.text s)) :
    processHtmlFile w p cfg false ts = (false, w) := by
  unfold processHtmlFile
  rw [hr]
  rfl

/-- Processing a clean document is a `false` no-op. -/
theorem processHtmlFile_clean_noop (w : World) (p : String) (cfg : Config)
    (ts : Nat) (d : HtmlDoc) (hr : fsRead w.fs p = some (FileData.html d))
    (hc : cleanDoc d) : processHtmlFile w p cfg false ts = (false, w) := by
  obtain ⟨hc1, hc2, hc3⟩ := hc
  have hjs : extractJsFromHtml w d p
      (sanitizeStringForFilename (pathBasenameExt p ".html")) cfg false ts =
      (d, ⟨d.scripts, [], false, w⟩) := by
    unfold extractJsFromHtml
    dsimp only
    rw [extractJsLoop_unmatched_id _ p cfg ts _ false d.scripts w 0 hc3]
  unfold processHtmlFile
  rw [hr]
  dsimp only [parseHtmlFile]
  rw [extractCss_clean d (pathBasenameExt p ".html") hc1 hc2]
  dsimp only
  have hne : ¬((false || decide ("" ≠ "")) = true) := by decide
  rw [if_neg hne]
  dsimp only
  rw [hjs]
  rfl

/-! ## Idempotence (claim C4), part 6: first-run postcondition -/

/-- The link injector only touches `hasHead` and `headLinks`. -/
theorem addCssLink_fields (d : HtmlDoc) (p b : String) (cfg : Config) :
    (addCssLinkToHtmlHead d p b cfg).1.styleTags = d.styleTags ∧
    (addCssLinkToHtmlHead d p b cfg).1.elems = d.elems ∧
    (addCssLinkToHtmlHead d p b cfg).1.scripts = d.scripts := by
  unfold addCssLinkToHtmlHead
  dsimp only
  split
  · exact ⟨rfl, rfl, rfl⟩
  · exact ⟨rfl, rfl, rfl⟩

/-- A text-only extension keeps a clean document's path inert. -/
theorem inert_of_textExtends (w w' : World) (p : String) (d : HtmlDoc)
    (hrp : fsRead w.fs p = some (FileData.html d)) (hcd : cleanDoc d)
    (hte : TextExtends w w') : inertValue (fsRead w'.fs p) := by
  rcases hte p with h | ⟨s, h⟩
  · rw [h, hrp]
    exact Or.inr ⟨d, rfl, hcd⟩
  · rw [h]
    exact Or.inl ⟨s, rfl⟩

/-- The write-back of a clean document (over an optional backup write)
followed by the dist mirror leaves the document's path inert. -/
theorem writeback_inert (p : String) (cfg : Config) (wJ wB : World)
    (finalDoc : HtmlDoc) (hclean : cleanDoc finalDoc)
    (hwB : ∀ q, q ≠ p ++ ".bak" → fsRead wB.fs q = fsRead wJ.fs q)
    (files : List JsFileRec)
    (hsrcText : ∀ rec ∈ files,
      ∃ s, fsRead wJ.fs rec.sourcePath = some (FileData.text s))
    (hsrcJs : ∀ rec ∈ files, strEndsWith rec.sourcePath ".js" = true)
    (dest : String) :
    inertValue (fsRead (fsWriteW wB p (FileData.html finalDoc)).fs p) ∧
    inertValue (fsRead (distCopyJs cfg false
      (fsWriteW (fsWriteW wB p (FileData.html finalDoc)) dest (FileData.html finalDoc))
      files).fs p) := by
  have hfdInert : inertValue (some (FileData.html finalDoc)) := Or.inr ⟨finalDoc, rfl, hclean⟩
  have h1 : inertValue (fsRead (fsWriteW wB p (FileData.html finalDoc)).fs p) := by
    rw [fsRead_fsWriteW_self]
    exact hfdInert
  refine ⟨h1, ?_⟩
  apply distCopyJs_inert
  · exact inertValue_after_write _ dest p _ h1 hfdInert
  · intro rec hm
    apply inertValue_after_write _ dest _ _ ?_ hfdInert
    by_cases hsp : rec.sourcePath = p
    · rw [hsp, fsRead_fsWriteW_self]
      exact hfdInert
    · rw [fsRead_fsWriteW_other _ _ _ _ hsp]
      have hne : rec.sourcePath ≠ p ++ ".bak" :=
        js_ne_bak _ _ (hsrcJs rec hm) (strEndsWith_append p ".bak")
      rw [hwB _ hne]
      obtain ⟨s, hs⟩ := hsrcText rec hm
      rw [hs]
      exact Or.inl ⟨s, rfl⟩

/-- The stage of `processHtmlFile` after the CSS phase: running the script
extractor and the write-back on a blank-styled document whose scripts came
from the source leaves the source path inert. -/
theorem processTail_inert (p b : String) (cfg : Config) (ts : Nat)
    (w w2 : World) (d doc2 : HtmlDoc) (cssMod nl : Bool)
    (hw2 : TextExtends w w2)
    (hrp : fsRead w.fs p = some (FileData.html d))
    (hstyle : cssMod = false →
      (∀ t ∈ d.styleTags, strTrim t = "") ∧ (∀ e ∈ d.elems, styleBlank e))
    (ht : ∀ t ∈ doc2.styleTags, strTrim t = "")
    (he : ∀ e ∈ doc2.elems, styleBlank e)
    (hs : doc2.scripts = d.scripts) :
    inertValue (fsRead
      (let jres := extractJsFromHtml w2 doc2 p b cfg false ts
       let finalDoc : HtmlDoc := { doc2 with scripts := jres.1.scripts }
       let jr := jres.2
       if cssMod || jr.jsModifiedInHtml || nl then
         let main :=
           if finalDoc = d then (false, jr.world)
           else
             let wB :=
               if cfg.createBackups then
                 match fsRead jr.world.fs p with
                 | some cur => fsWriteW jr.world (p ++ ".bak") cur
                 | none => jr.world
               else jr.world
             (true, fsWriteW wB p (FileData.html finalDoc))
         let w5 :=
           if cfg.copyToDist then
             distCopyJs cfg false (fsWriteW main.2
               (pathJoin (pathResolve cfg.projectRoot cfg.distDir)
                 (pathRelative (pathResolve cfg.projectRoot cfg.distSourceRoot) p))
               (FileData.html finalDoc)) jr.extractedJsFiles
           else main.2
         (main.1, w5)
       else (false, jr.world)).2.fs p) := by
  have gScripts : ∀ sc ∈ (extractJsFromHtml w2 doc2 p b cfg false ts).1.scripts,
      jsMatch sc = false :=
    extractJsLoop_scripts_unmatched (generateSafeBaseName b "JS" cfg) p cfg ts
      ((doc2.scripts.filter jsMatch).length) doc2.scripts w2 0
  have gTE : TextExtends w2 (extractJsFromHtml w2 doc2 p b cfg false ts).2.world :=
    extractJsLoop_textExtends (generateSafeBaseName b "JS" cfg) p cfg ts
      ((doc2.scripts.filter jsMatch).length) false doc2.scripts w2 0
  have gSrcText : ∀ rec ∈ (extractJsFromHtml w2 doc2 p b cfg false ts).2.extractedJsFiles,
      ∃ s, fsRead (extractJsFromHtml w2 doc2 p b cfg false ts).2.world.fs rec.sourcePath
        = some (FileData.text s) :=
    extractJsLoop_sources_text (generateSafeBaseName b "JS" cfg) p cfg ts
      ((doc2.scripts.filter jsMatch).length) doc2.scripts w2 0
  have gSrcJs : ∀ rec ∈ (extractJsFromHtml w2 doc2 p b cfg false ts).2.extractedJsFiles,
      strEndsWith rec.sourcePath ".js" = true :=
    extractJsLoop_sources_endsWith (generateSafeBaseName b "JS" cfg) p cfg ts
      ((doc2.scripts.filter jsMatch).length) doc2.scripts w2 0
  have gNotMod : (extractJsFromHtml w2 doc2 p b cfg false ts).2.jsModifiedInHtml = false →
      ∀ sc ∈ doc2.scripts, jsMatch sc = false :=
    extractJsLoop_not_modified (generateSafeBaseName b "JS" cfg) p cfg ts
      ((doc2.scripts.filter jsMatch).length) false doc2.scripts w2 0
  dsimp only
  generalize hj : extractJsFromHtml w2 doc2 p b cfg false ts = jres
  rw [hj] at gScripts gTE gSrcText gSrcJs gNotMod
  have hcleanF : cleanDoc { doc2 with scripts := jres.1.scripts } := ⟨ht, he, gScripts⟩
  by_cases heff : (cssMod || jres.2.jsModifiedInHtml || nl) = true
  · rw [if_pos heff]
    dsimp only
    by_cases hfd : ({ doc2 with scripts := jres.1.scripts } : HtmlDoc) = d
    · rw [if_pos hfd]
      dsimp only
      by_cases hcd2 : cfg.copyToDist = true
      · rw [if_pos hcd2]
        apply distCopyJs_inert
        · apply inertValue_after_write
          · exact inert_of_textExtends w jres.2.world p d hrp (hfd ▸ hcleanF) (hw2.trans gTE)
          · exact Or.inr ⟨_, rfl, hcleanF⟩
        · intro rec hm
          apply inertValue_after_write
          · obtain ⟨s, hsx⟩ := gSrcText rec hm
            rw [hsx]
            exact Or.inl ⟨s, rfl⟩
          · exact Or.inr ⟨_, rfl, hcleanF⟩
      · rw [if_neg hcd2]
        exact inert_of_textExtends w jres.2.world p d hrp (hfd ▸ hcleanF) (hw2.trans gTE)
    · rw [if_neg hfd]
      dsimp only
      by_cases hbk : cfg.createBackups = true
      · rw [if_pos hbk]
        cases hcur : fsRead jres.2.world.fs p with
        | some cur =>
          have hwB : ∀ q, q ≠ p ++ ".bak" →
              fsRead (fsWriteW jres.2.world (p ++ ".bak") cur).fs q
                = fsRead jres.2.world.fs q :=
            fun q hq => fsRead_fsWriteW_other jres.2.world (p ++ ".bak") q cur hq
          by_cases hcd2 : cfg.copyToDist = true
          · rw [if_pos hcd2]
            dsimp only
            exact (writeback_inert p cfg jres.2.world _ _ hcleanF hwB
              jres.2.extractedJsFiles gSrcText gSrcJs _).2
          · rw [if_neg hcd2]
            dsimp only
            exact (writeback_inert p cfg jres.2.world _ _ hcleanF hwB
              jres.2.extractedJsFiles gSrcText gSrcJs p).1
        | none =>
          have hwB : ∀ q, q ≠ p ++ ".bak" →
              fsRead jres.2.world.fs q = fsRead jres.2.world.fs q := fun _ _ => rfl
          by_cases hcd2 : cfg.copyToDist = true
          · rw [if_pos hcd2]
            dsimp only
            exact (writeback_inert p cfg jres.2.world _ _ hcleanF hwB
              jres.2.extractedJsFiles gSrcText gSrcJs _).2
          · rw [if_neg hcd2]
            dsimp only
            exact (writeback_inert p cfg jres.2.world _ _ hcleanF hwB
              jres.2.extractedJsFiles gSrcText gSrcJs p).1
      · rw [if_neg hbk]
        have hwB : ∀ q, q ≠ p ++ ".bak" →
            fsRead jres.2.world.fs q = fsRead jres.2.world.fs q := fun _ _ => rfl
        by_cases hcd2 : cfg.copyToDist = true
        · rw [if_pos hcd2]
          exact (writeback_inert p cfg jres.2.world _ _ hcleanF hwB
            jres.2.extractedJsFiles gSrcText gSrcJs _).2
        · rw [if_neg hcd2]
          exact (writeback_inert p cfg jres.2.world _ _ hcleanF hwB
            jres.2.extractedJsFiles gSrcText gSrcJs p).1
  · rw [if_neg heff]
    simp only [Bool.or_eq_true, not_or, Bool.not_eq_true] at heff
    obtain ⟨hst, hse⟩ := hstyle heff.1.1
    have hcd : cleanDoc d := ⟨hst, hse, by rw [← hs]; exact gNotMod heff.1.2⟩
    exact inert_of_textExtends w jres.2.world p d hrp hcd (hw2.trans gTE)

/-- A first real run over a parsed document leaves its path holding either
opaque text or a clean document. -/
theorem processHtmlFile_html_inert (w : World) (p : String) (cfg : Config)
    (ts : Nat) (d : HtmlDoc) (hr : fsRead w.fs p = some (FileData.html d)) :
    inertValue (fsRead (processHtmlFile w p cfg false ts).2.fs p) := by
  unfold processHtmlFile
  rw [hr]
  dsimp only [parseHtmlFile]
  generalize hr1 : extractCssFromHtml d (pathBasenameExt p ".html") = r1
  have f1 : ∀ t ∈ r1.doc.styleTags, strTrim t = "" := by
    rw [← hr1]
    exact fun t ht => styleTagPass_kept_blank (pathBasenameExt p ".html") d.styleTags 0 t ht
  have f2 : ∀ e ∈ r1.doc.elems, styleBlank e := by
    rw [← hr1, extractCssFromHtml_elems]
    intro e he
    obtain ⟨x, hx, hxe⟩ := List.mem_map.mp he
    rw [← hxe]
    exact styleElemTransform_blank x
  have f3 : r1.doc.scripts = d.scripts := by
    rw [← hr1]
    rfl
  have f4 : r1.cssModified = false →
      (∀ t ∈ d.styleTags, strTrim t = "") ∧ (∀ e ∈ d.elems, styleBlank e) := by
    intro hm
    exact extractCss_not_modified d _ (by rw [hr1]; exact hm)
  by_cases hcss : (r1.cssModified || decide (r1.cssContent ≠ "")) = true
  · rw [if_pos hcss]
    cases hsp : (saveCssFile w r1.cssContent (generateCssFileBaseName p cfg) p cfg false).savedPath with
    | some q =>
      dsimp only
      obtain ⟨ha1, ha2, ha3⟩ := addCssLink_fields r1.doc p (generateCssFileBaseName p cfg) cfg
      exact processTail_inert p _ cfg ts w _ d _ r1.cssModified _
        (saveCssFile_textExtends w r1.cssContent (generateCssFileBaseName p cfg) p cfg false)
        hr f4 (by rw [ha1]; exact f1) (by rw [ha2]; exact f2) (by rw [ha3]; exact f3)
    | none =>
      dsimp only
      exact processTail_inert p _ cfg ts w _ d r1.doc r1.cssModified false
        (saveCssFile_textExtends w r1.cssContent (generateCssFileBaseName p cfg) p cfg false)
        hr f4 f1 f2 f3
  · rw [if_neg hcss]
    dsimp only
    exact processTail_inert p _ cfg ts w w d r1.doc r1.cssModified false
      (textExtends_refl w) hr f4 f1 f2 f3

/-- C4, confirmed (§8 P1): a real (non-dry) run of `processHtmlFile` is
idempotent: immediately re-processing the same path reports no change and
leaves the filesystem exactly as the first run left it, for every starting
world, path, configuration and timestamp pair. -/
theorem claim_C4 (w : World) (p : String) (cfg : Config) (ts₁ ts₂ : Nat) :
    processHtmlFile (processHtmlFile w p cfg false ts₁).2 p cfg false ts₂
      = (false, (processHtmlFile w p cfg false ts₁).2) := by
  cases hr : fsRead w.fs p with
  | none =>
    have h1 : processHtmlFile w p cfg false ts₁ = (false, w) :=
      processHtmlFile_read_none w p cfg false ts₁ hr
    rw [h1]
    exact processHtmlFile_read_none w p cfg false ts₂ hr
  | some fd =>
    cases fd with
    | text s =>
      have h1 : processHtmlFile w p cfg false ts₁ = (false, w) :=
        processHtmlFile_text_noop w p cfg ts₁ s hr
      rw [h1]
      exact processHtmlFile_text_noop w p cfg ts₂ s hr
    | html d =>
      rcases processHtmlFile_html_inert w p cfg ts₁ d hr with ⟨s, hs⟩ | ⟨d', hd', hcd⟩
      · exact processHtmlFile_text_noop _ p cfg ts₂ s hs
      · exact processHtmlFile_clean_noop _ p cfg ts₂ d' hd' hcd
